import Mathlib

/-!
# Verification of the hierarchical TOC segmentation core (`pdf_extractor.py`)

This file gives a shallow embedding of the table-of-contents segmentation
algorithm of the summarizer: the tree builder (`build_toc_tree`), the page-range
text extractors (`extract_text_for_node`, `extract_text_for_page_range`), the
ancestor-intro resolver (`get_ancestor_intro_texts`), the leaf collector
(`collect_leaf_nodes`) and the segment materializer (`extract_pdf_content`).

The tree of `TOCNode` objects with mutable parent/child references is embedded
as an arena: a `List TOCNode` indexed by the 0-based position of the entry in
the outline, with `parent` and `children` holding arena indices.  The Python
object graph is exactly this arena (object identity = arena index).  A pymupdf
document is modelled by its page-text function `doc : Int → String` (0-indexed
pages) together with its page count `docLength`.
-/

namespace TocSeg

/-- One `[level, title, page]` entry of the flat outline returned by
`doc.get_toc()`. -/
structure OutlineEntry where
  level : Int
  title : String
  page : Int
deriving Repr, DecidableEq, Inhabited

/-- Arena node for `class TOCNode`.  `children` and `parent` store arena
indices (0-based position of the entry in the outline); `idx` is the 1-based
sequential index used for file naming.  The lazily-populated `text`/`summary`
fields are not modelled: the materializer below returns the texts directly. -/
structure TOCNode where
  level : Int
  title : String
  page : Int
  idx : Nat
  endPage : Option Int := none
  children : List Nat := []
  parent : Option Nat := none
deriving Repr, DecidableEq, Inhabited

/-- Level of the `i`-th outline entry. -/
def lvl (toc : List OutlineEntry) (i : Nat) : Int := (toc.getD i default).level

/-- Page of the `i`-th outline entry. -/
def pg (toc : List OutlineEntry) (i : Nat) : Int := (toc.getD i default).page

/-- Title of the `i`-th outline entry. -/
def ttl (toc : List OutlineEntry) (i : Nat) : String := (toc.getD i default).title

/-- Node creation pass of `build_toc_tree`:
`for idx, (level, title, page) in enumerate(toc, start=1): nodes.append(TOCNode(...))`. -/
def mkNodes (toc : List OutlineEntry) : List TOCNode :=
  (List.range toc.length).map (fun i =>
    let e := toc.getD i default
    { level := e.level, title := e.title, page := e.page, idx := i + 1 })

/-- End-page pass of `build_toc_tree`: for each node, scan forward for the
first later node with level `≤` the level of this node (`break` on the first
hit) and record its page. -/
def setEndPages (nodes : List TOCNode) : List TOCNode :=
  (List.range nodes.length).map (fun i =>
    let node := nodes.getD i default
    { node with
      endPage := ((nodes.drop (i + 1)).find? (fun m => m.level ≤ node.level)).map (·.page) })

/-- Write through an arena index (`arena[i] = f arena[i]`). -/
def updateAt (arena : List TOCNode) (i : Nat) (f : TOCNode → TOCNode) : List TOCNode :=
  arena.set i (f (arena.getD i default))

/-- One iteration of the hierarchy loop of `build_toc_tree` at entry `i`:
pop the stack while its top level is `≥` the level of the new entry, then either
attach the node as last child of the new stack top or record it as a root,
and finally push `(level, i)`. -/
def buildStep (st : List TOCNode × List Nat × List (Int × Nat)) (i : Nat) :
    List TOCNode × List Nat × List (Int × Nat) :=
  let arena := st.1
  let roots := st.2.1
  let stack := st.2.2
  let node := arena.getD i default
  let stack1 := stack.dropWhile (fun p => node.level ≤ p.1)
  match stack1 with
  | (_, pIdx) :: _ =>
      let arena1 := updateAt arena pIdx (fun pn => { pn with children := pn.children ++ [i] })
      let arena2 := updateAt arena1 i (fun n => { n with parent := some pIdx })
      (arena2, roots, (node.level, i) :: stack1)
  | [] =>
      (arena, roots ++ [i], (node.level, i) :: stack1)

/-- `build_toc_tree`: node creation, end-page pass, then the stack-based
hierarchy pass.  Returns the arena together with the list of root indices. -/
def build_toc_tree (toc : List OutlineEntry) : List TOCNode × List Nat :=
  let nodes := setEndPages (mkNodes toc)
  let st := (List.range nodes.length).foldl buildStep (nodes, [], [])
  (st.1, st.2.1)

/-- `range(a, b)` over integers, as the list `[a, a+1, …, b-1]`. -/
def intRange (a b : Int) : List Int :=
  (List.range (b - a).toNat).map (fun k => a + (k : Int))

/-- Python `str.strip()` (with no argument): remove leading and trailing
whitespace.  Modelled on the character list so that it evaluates inside the
kernel. -/
def pyStrip (s : String) : String :=
  String.mk (((s.data.dropWhile Char.isWhitespace).reverse.dropWhile Char.isWhitespace).reverse)

/-- Python `sep.join(parts)`. -/
def pyJoin (sep : String) : List String → String
  | [] => ""
  | [s] => s
  | s :: rest => s ++ sep ++ pyJoin sep rest

/-- `extract_text_for_node`: pages `range(node.page - 1, end)` are concatenated
(skipping page numbers `≥ doc_length`) and stripped, where `end` is
`node.end_page - 1` when `node.end_page` is truthy (not `None` and not `0`)
and `doc_length` otherwise. -/
def extract_text_for_node (doc : Int → String) (node : TOCNode) (docLength : Nat) : String :=
  let startPage : Int := node.page - 1
  let endPage : Int :=
    match node.endPage with
    | some e => if e = 0 then (docLength : Int) else e - 1
    | none => (docLength : Int)
  pyStrip ((intRange startPage endPage).foldl
    (fun acc p => if p < (docLength : Int) then acc ++ doc p else acc) "")

/-- `extract_text_for_page_range`: pages `range(start_page - 1, end_page - 1)`
are concatenated (skipping page numbers outside `[0, doc_length)`) and
stripped. -/
def extract_text_for_page_range (doc : Int → String) (startPage endPage : Int)
    (docLength : Nat) : String :=
  let startIdx : Int := startPage - 1
  let endIdx : Int := endPage - 1
  pyStrip ((intRange startIdx endIdx).foldl
    (fun acc p => if 0 ≤ p ∧ p < (docLength : Int) then acc ++ doc p else acc) "")

/-- Loop body of `get_ancestor_intro_texts`: walk up the parent links; at each
step, if the current node is `parent.children[0]`, possibly prepend the
labelled intro text of the parent (only when `parent.page < first_child.page` and
the extracted text is non-empty) and continue from the parent; otherwise stop.
The Python loop has no step bound; `fuel` is an upper bound on the number of
steps, and every use below supplies a fuel that is proved sufficient. -/
def introAux (doc : Int → String) (arena : List TOCNode) (docLength : Nat) :
    Nat → Nat → List String → List String
  | 0, _, acc => acc
  | fuel + 1, cur, acc =>
    let node := arena.getD cur default
    match node.parent with
    | none => acc
    | some p =>
      let parent := arena.getD p default
      match parent.children.head? with
      | none => acc
      | some fc =>
        if fc = cur then
          let firstChild := arena.getD fc default
          let acc1 :=
            if parent.page < firstChild.page then
              let intro := extract_text_for_page_range doc parent.page firstChild.page docLength
              if intro = "" then acc
              else ("[Context from: " ++ parent.title ++ "]\n" ++ intro) :: acc
            else acc
          introAux doc arena docLength fuel p acc1
        else acc

/-- `get_ancestor_intro_texts` on the arena node at index `node`. -/
def get_ancestor_intro_texts (doc : Int → String) (arena : List TOCNode) (node : Nat)
    (docLength : Nat) : String :=
  pyJoin "\n\n" (introAux doc arena docLength arena.length node [])

/-- Recursive `traverse` of `collect_leaf_nodes`: emit the node if it is a
leaf, otherwise recurse into its children in stored order.  `fuel` bounds the
recursion depth and is proved sufficient at every use. -/
def traverseLeaves (arena : List TOCNode) : Nat → Nat → List Nat
  | 0, _ => []
  | fuel + 1, i =>
    let node := arena.getD i default
    if node.children = [] then [i]
    else node.children.flatMap (fun c => traverseLeaves arena fuel c)

/-- `collect_leaf_nodes`: depth-first traversal of every root in order. -/
def collect_leaf_nodes (arena : List TOCNode) (roots : List Nat) : List Nat :=
  roots.flatMap (fun r => traverseLeaves arena arena.length r)

/-- `MIN_WORD_COUNT` from `constants.py`. -/
def MIN_WORD_COUNT : Nat := 200

/-- Helper for `pySplit`: scan the character list, accumulating the current
word (reversed) and emitting it at each whitespace run or at the end. -/
def pySplitGo : List Char → List Char → List String
  | [], cur => if cur = [] then [] else [String.mk cur.reverse]
  | c :: rest, cur =>
    if c.isWhitespace then
      if cur = [] then pySplitGo rest []
      else String.mk cur.reverse :: pySplitGo rest []
    else pySplitGo rest (c :: cur)

/-- Python `str.split()` (with no argument): split on whitespace runs,
dropping empty pieces. -/
def pySplit (s : String) : List String :=
  pySplitGo s.data []

/-- Core of `extract_pdf_content` after the outline has been fetched: build
the tree, collect the leaves, and for each leaf combine the ancestor intro
with the own text of the leaf, keeping the segment only when its word count reaches
`minWordCount`.  Returns `(arena index, final text)` pairs (the code stores
the text on the node and returns a dict holding the node and its text). -/
def extract_pdf_content (doc : Int → String) (toc : List OutlineEntry) (docLength : Nat)
    (minWordCount : Nat) : List (Nat × String) :=
  let built := build_toc_tree toc
  let leaves := collect_leaf_nodes built.1 built.2
  leaves.filterMap (fun i =>
    let ancestorIntro := get_ancestor_intro_texts doc built.1 i docLength
    let leafText := extract_text_for_node doc (built.1.getD i default) docLength
    let combined :=
      if ancestorIntro = "" then leafText
      else ancestorIntro ++ "\n\n---\n\n" ++ leafText
    let words := pySplit combined
    if minWordCount ≤ words.length then some (i, pyJoin " " words) else none)

end TocSeg

namespace TocSeg

/-! ## Specification-side description of the hierarchy

`specParent toc i` is the index of the nearest preceding entry with strictly
smaller level (the spec rule for the parent of entry `i`), found by scanning
indices `i-1, i-2, …, 0` and returning the first hit. -/

/-- Largest `j < i` with `lvl toc j < x`, scanning downwards from `i - 1`. -/
def nsvBelow (toc : List OutlineEntry) (x : Int) : Nat → Option Nat
  | 0 => none
  | m + 1 => if lvl toc m < x then some m else nsvBelow toc x m

/-- The nearest preceding entry with strictly smaller level, or `none` if no
preceding entry has a strictly smaller level. -/
def specParent (toc : List OutlineEntry) (i : Nat) : Option Nat :=
  nsvBelow toc (lvl toc i) i

theorem nsvBelow_lt {toc : List OutlineEntry} {x : Int} :
    ∀ {i p : Nat}, nsvBelow toc x i = some p → p < i := by
  intro i
  induction i with
  | zero => intro p h; simp [nsvBelow] at h
  | succ m ih =>
    intro p h
    by_cases hc : lvl toc m < x
    · simp [nsvBelow, hc] at h
      omega
    · simp [nsvBelow, hc] at h
      exact Nat.lt_succ_of_lt (ih h)

theorem nsvBelow_lvl {toc : List OutlineEntry} {x : Int} :
    ∀ {i p : Nat}, nsvBelow toc x i = some p → lvl toc p < x := by
  intro i
  induction i with
  | zero => intro p h; simp [nsvBelow] at h
  | succ m ih =>
    intro p h
    by_cases hc : lvl toc m < x
    · simp [nsvBelow, hc] at h
      exact h ▸ hc
    · simp [nsvBelow, hc] at h
      exact ih h

theorem nsvBelow_between {toc : List OutlineEntry} {x : Int} :
    ∀ {i p : Nat}, nsvBelow toc x i = some p → ∀ j, p < j → j < i → x ≤ lvl toc j := by
  intro i
  induction i with
  | zero => intro p h; simp [nsvBelow] at h
  | succ m ih =>
    intro p h j hpj hji
    by_cases hc : lvl toc m < x
    · simp [nsvBelow, hc] at h
      omega
    · simp [nsvBelow, hc] at h
      rcases Nat.lt_succ_iff_lt_or_eq.mp hji with hlt | rfl
      · exact ih h j hpj hlt
      · exact le_of_not_lt hc

theorem nsvBelow_none {toc : List OutlineEntry} {x : Int} :
    ∀ {i : Nat}, nsvBelow toc x i = none → ∀ j, j < i → x ≤ lvl toc j := by
  intro i
  induction i with
  | zero => intro _ j hj; omega
  | succ m ih =>
    intro h j hj
    by_cases hc : lvl toc m < x
    · simp [nsvBelow, hc] at h
    · simp [nsvBelow, hc] at h
      rcases Nat.lt_succ_iff_lt_or_eq.mp hj with hlt | rfl
      · exact ih h j hlt
      · exact le_of_not_lt hc

theorem nsvBelow_eq_some {toc : List OutlineEntry} {x : Int} :
    ∀ {i p : Nat}, p < i → lvl toc p < x → (∀ j, p < j → j < i → x ≤ lvl toc j) →
      nsvBelow toc x i = some p := by
  intro i
  induction i with
  | zero => intro p h; omega
  | succ m ih =>
    intro p hpi hp hall
    rcases Nat.lt_succ_iff_lt_or_eq.mp hpi with hlt | rfl
    · have hm : ¬ lvl toc m < x := not_lt.mpr (hall m hlt (Nat.lt_succ_self m))
      simp [nsvBelow, hm]
      exact ih hlt hp (fun j h1 h2 => hall j h1 (Nat.lt_succ_of_lt h2))
    · simp [nsvBelow, hp]

theorem nsvBelow_eq_none {toc : List OutlineEntry} {x : Int} :
    ∀ {i : Nat}, (∀ j, j < i → x ≤ lvl toc j) → nsvBelow toc x i = none := by
  intro i
  induction i with
  | zero => intro _; rfl
  | succ m ih =>
    intro hall
    have hm : ¬ lvl toc m < x := not_lt.mpr (hall m (Nat.lt_succ_self m))
    simp [nsvBelow, hm]
    exact ih (fun j hj => hall j (Nat.lt_succ_of_lt hj))

theorem nsvBelow_skip {toc : List OutlineEntry} {x : Int} :
    ∀ {a b : Nat}, b ≤ a → (∀ t, b ≤ t → t < a → x ≤ lvl toc t) →
      nsvBelow toc x a = nsvBelow toc x b := by
  intro a
  induction a with
  | zero => intro b hb _; cases Nat.le_zero.mp hb; rfl
  | succ m ih =>
    intro b hb hall
    rcases Nat.le_succ_iff.mp hb  with hbm | rfl
    · have hm : ¬ lvl toc m < x := not_lt.mpr (hall m hbm (Nat.lt_succ_self m))
      simp [nsvBelow, hm]
      exact ih hbm (fun t h1 h2 => hall t h1 (Nat.lt_succ_of_lt h2))
    · rfl

theorem specParent_lt {toc : List OutlineEntry} {i p : Nat}
    (h : specParent toc i = some p) : p < i :=
  nsvBelow_lt h

theorem specParent_lvl {toc : List OutlineEntry} {i p : Nat}
    (h : specParent toc i = some p) : lvl toc p < lvl toc i :=
  nsvBelow_lvl h

theorem specParent_between {toc : List OutlineEntry} {i p : Nat}
    (h : specParent toc i = some p) : ∀ j, p < j → j < i → lvl toc i ≤ lvl toc j :=
  nsvBelow_between h

theorem specParent_none {toc : List OutlineEntry} {i : Nat}
    (h : specParent toc i = none) : ∀ j, j < i → lvl toc i ≤ lvl toc j :=
  nsvBelow_none h

theorem specParent_zero {toc : List OutlineEntry} : specParent toc 0 = none := rfl

/-- The chain of ancestors of `i` (`i` first, root last), computed with a fuel
bound on the recursion depth; `fuel = i` always suffices since the parent
index is strictly smaller. -/
def chainFuel (toc : List OutlineEntry) : Nat → Nat → List Nat
  | 0, i => [i]
  | fuel + 1, i =>
    i :: (match specParent toc i with
      | some p => chainFuel toc fuel p
      | none => [])

theorem chainFuel_congr {toc : List OutlineEntry} :
    ∀ {i f g : Nat}, i ≤ f → i ≤ g → chainFuel toc f i = chainFuel toc g i := by
  intro i
  induction i using Nat.strong_induction_on with
  | _ i ih =>
    intro f g hf hg
    match f, g with
    | 0, 0 => rfl
    | 0, g + 1 =>
      interval_cases i
      simp [chainFuel, specParent_zero]
    | f + 1, 0 =>
      interval_cases i
      simp [chainFuel, specParent_zero]
    | f + 1, g + 1 =>
      simp only [chainFuel]
      cases hsp : specParent toc i with
      | none => rfl
      | some p =>
        have hpi : p < i := specParent_lt hsp
        simp only [List.cons.injEq, true_and]
        exact ih p hpi (by omega) (by omega)

/-- The ancestor chain of `i` (self first, root last). -/
def chain (toc : List OutlineEntry) (i : Nat) : List Nat :=
  chainFuel toc i i

/-- Appending the continuation of a chain below an optional parent. -/
def optChain (toc : List OutlineEntry) : Option Nat → List Nat
  | none => []
  | some p => chain toc p

theorem chain_cons {toc : List OutlineEntry} (i : Nat) :
    chain toc i = i :: optChain toc (specParent toc i) := by
  unfold chain
  cases i with
  | zero => simp [chainFuel, specParent_zero, optChain]
  | succ m =>
    simp only [chainFuel]
    cases hsp : specParent toc (m + 1) with
    | none => simp [optChain]
    | some p =>
      have hp : p < m + 1 := specParent_lt hsp
      simp only [optChain, chain, List.cons.injEq, true_and]
      exact chainFuel_congr (by omega) (le_refl p)

/-- Popping the stack with threshold `lvl toc i` from the ancestor chain of
`m` (for `m < i`) leaves exactly the chain of the nearest index `≤ m` whose
level is strictly below `lvl toc i`. -/
theorem dropWhile_chain {toc : List OutlineEntry} {i : Nat} :
    ∀ {m : Nat}, m < i →
      (chain toc m).dropWhile (fun j => decide (lvl toc i ≤ lvl toc j)) =
        optChain toc (nsvBelow toc (lvl toc i) (m + 1)) := by
  intro m
  induction m using Nat.strong_induction_on with
  | _ m ih =>
    intro hmi
    rw [chain_cons]
    by_cases hlt : lvl toc m < lvl toc i
    · rw [List.dropWhile_cons_of_neg (by simpa using not_le.mpr hlt)]
      have : nsvBelow toc (lvl toc i) (m + 1) = some m := by
        simp [nsvBelow, hlt]
      rw [this, optChain, chain_cons]
    · rw [List.dropWhile_cons_of_pos (by simpa using not_lt.mp hlt)]
      have hrw : nsvBelow toc (lvl toc i) (m + 1) = nsvBelow toc (lvl toc i) m := by
        simp [nsvBelow, hlt]
      rw [hrw]
      cases hsp : specParent toc m with
      | none =>
        have : nsvBelow toc (lvl toc i) m = none :=
          nsvBelow_eq_none (fun j hj => le_trans (not_lt.mp hlt) (specParent_none hsp j hj))
        simp [optChain, this]
      | some p =>
        have hpm : p < m := specParent_lt hsp
        have hskip : nsvBelow toc (lvl toc i) m = nsvBelow toc (lvl toc i) (p + 1) :=
          nsvBelow_skip (by omega)
            (fun t h1 h2 => le_trans (not_lt.mp hlt) (specParent_between hsp t (by omega) h2))
        rw [hskip, optChain]
        exact ih p hpm (by omega)

end TocSeg

namespace TocSeg

/-- Indices `c < m` whose spec-level parent is `i`, in increasing order. -/
def childrenBefore (toc : List OutlineEntry) (m i : Nat) : List Nat :=
  (List.range m).filter (fun c => decide (specParent toc c = some i))

/-- Indices `c < m` with no spec-level parent, in increasing order. -/
def rootsBefore (toc : List OutlineEntry) (m : Nat) : List Nat :=
  (List.range m).filter (fun c => decide (specParent toc c = none))

/-- The children of `i` in the finished forest. -/
def childrenF (toc : List OutlineEntry) (i : Nat) : List Nat :=
  childrenBefore toc toc.length i

/-- The roots of the finished forest. -/
def rootsF (toc : List OutlineEntry) : List Nat :=
  rootsBefore toc toc.length

/-- The end page recorded by the end-page pass for entry `i`. -/
def specEndPage (toc : List OutlineEntry) (i : Nat) : Option Int :=
  (((mkNodes toc).drop (i + 1)).find? (fun nd => nd.level ≤ lvl toc i)).map (·.page)

/-- The node for entry `i` after the end-page pass, before the hierarchy
pass. -/
def baseNode (toc : List OutlineEntry) (i : Nat) : TOCNode :=
  { level := lvl toc i, title := ttl toc i, page := pg toc i, idx := i + 1,
    endPage := specEndPage toc i }

/-- The node for entry `i` after the hierarchy pass has processed the first
`m` entries. -/
def expNode (toc : List OutlineEntry) (m i : Nat) : TOCNode :=
  { baseNode toc i with
    parent := if i < m then specParent toc i else none,
    children := childrenBefore toc m i }

/-- The stack after the hierarchy pass has processed the first `m` entries:
the ancestor chain of entry `m - 1`, paired with levels. -/
def expStack (toc : List OutlineEntry) : Nat → List (Int × Nat)
  | 0 => []
  | m + 1 => (chain toc m).map (fun j => (lvl toc j, j))

theorem getD_map_range {α : Type} (f : Nat → α) {n i : Nat} (d : α) (h : i < n) :
    ((List.range n).map f).getD i d = f i := by
  rw [List.getD_eq_get?, List.get?_map, List.get?_range h]
  rfl

theorem get?_map_range_lt {α : Type} (f : Nat → α) {n i : Nat} (h : i < n) :
    ((List.range n).map f).get? i = some (f i) := by
  rw [List.get?_map, List.get?_range h]
  rfl

theorem get?_map_range_ge {α : Type} (f : Nat → α) {n i : Nat} (h : n ≤ i) :
    ((List.range n).map f).get? i = none := by
  rw [List.get?_eq_none]
  simpa using h

theorem mkNodes_getD {toc : List OutlineEntry} {i : Nat} (h : i < toc.length) :
    (mkNodes toc).getD i default =
      { level := lvl toc i, title := ttl toc i, page := pg toc i, idx := i + 1 } := by
  unfold mkNodes
  rw [getD_map_range _ _ h]
  rfl

theorem mkNodes_length (toc : List OutlineEntry) : (mkNodes toc).length = toc.length := by
  unfold mkNodes
  rw [List.length_map, List.length_range]

theorem baseNodes_eq (toc : List OutlineEntry) :
    setEndPages (mkNodes toc) = (List.range toc.length).map (baseNode toc) := by
  unfold setEndPages
  rw [mkNodes_length]
  refine List.map_congr_left ?_
  intro i hi
  rw [List.mem_range] at hi
  rw [mkNodes_getD hi]
  rfl

theorem expNode_zero (toc : List OutlineEntry) (i : Nat) :
    expNode toc 0 i = baseNode toc i := by
  simp [expNode, childrenBefore, baseNode]

theorem childrenBefore_succ (toc : List OutlineEntry) (m i : Nat) :
    childrenBefore toc (m + 1) i =
      childrenBefore toc m i ++ if specParent toc m = some i then [m] else [] := by
  unfold childrenBefore
  rw [List.range_succ, List.filter_append]
  by_cases h : specParent toc m = some i <;> simp [h]

theorem rootsBefore_succ (toc : List OutlineEntry) (m : Nat) :
    rootsBefore toc (m + 1) =
      rootsBefore toc m ++ if specParent toc m = none then [m] else [] := by
  unfold rootsBefore
  rw [List.range_succ, List.filter_append]
  by_cases h : specParent toc m = none <;> simp [h]

theorem build_loop_invariant (toc : List OutlineEntry) :
    ∀ m, m ≤ toc.length →
      (List.range m).foldl buildStep ((List.range toc.length).map (expNode toc 0), [], []) =
        ((List.range toc.length).map (expNode toc m), rootsBefore toc m, expStack toc m) := by
  intro m
  induction m with
  | zero =>
    intro _
    simp [rootsBefore, expStack]
  | succ m ih =>
    intro hm1
    have hm : m < toc.length := hm1
    rw [List.range_succ, List.foldl_append, ih (le_of_lt hm), List.foldl_cons, List.foldl_nil]
    have hnode : ((List.range toc.length).map (expNode toc m)).getD m default =
        expNode toc m m := getD_map_range _ _ hm
    have hstack1 : (expStack toc m).dropWhile
          (fun p => decide ((expNode toc m m).level ≤ p.1)) =
        (optChain toc (specParent toc m)).map (fun j => (lvl toc j, j)) := by
      cases m with
      | zero =>
        simp [expStack, specParent_zero, optChain]
      | succ m' =>
        show ((chain toc m').map (fun j => (lvl toc j, j))).dropWhile _ = _
        rw [List.dropWhile_map]
        have : ((fun p : Int × Nat => decide ((expNode toc (m' + 1) (m' + 1)).level ≤ p.1)) ∘
            (fun j => (lvl toc j, j))) = fun j => decide (lvl toc (m' + 1) ≤ lvl toc j) := by
          funext j
          rfl
        rw [this, dropWhile_chain (Nat.lt_succ_self m')]
        rfl
    cases hsp : specParent toc m with
    | some p =>
      have hpm : p < m := specParent_lt hsp
      have hchain : optChain toc (specParent toc m) = p :: optChain toc (specParent toc p) := by
        rw [hsp, optChain, chain_cons]
      simp only [buildStep, hnode, hstack1, hchain, List.map_cons]
      have harena1_getm :
          (((List.range toc.length).map (expNode toc m)).set p
            { expNode toc m p with children := (expNode toc m p).children ++ [m] }).getD m
            default = expNode toc m m := by
        rw [List.getD_eq_get?, List.get?_set_ne _ _ (Nat.ne_of_lt hpm), get?_map_range_lt _ hm]
        rfl
      have harena : updateAt
            (updateAt ((List.range toc.length).map (expNode toc m)) p
              (fun pn => { pn with children := pn.children ++ [m] })) m
            (fun nd => { nd with parent := some p }) =
          (List.range toc.length).map (expNode toc (m + 1)) := by
        unfold updateAt
        rw [getD_map_range _ _ (by omega : p < toc.length), harena1_getm]
        apply List.ext_get?
        intro j
        by_cases hjn : j < toc.length
        · rw [get?_map_range_lt _ hjn]
          by_cases hjm : j = m
          · rw [hjm, List.get?_set_eq, List.get?_set_ne _ _ (Nat.ne_of_lt hpm),
              get?_map_range_lt _ hm]
            have hx2 : expNode toc (m + 1) m = { expNode toc m m with parent := some p } := by
              have hch : childrenBefore toc (m + 1) m = childrenBefore toc m m := by
                rw [childrenBefore_succ, hsp]
                simp [Nat.ne_of_lt hpm]
              simp [expNode, hch, hsp]
            rw [hx2]
            rfl
          · by_cases hjp : j = p
            · rw [hjp, List.get?_set_ne _ _ (by omega : m ≠ p), List.get?_set_eq,
                get?_map_range_lt _ (by omega : p < toc.length)]
              have hx1 : expNode toc (m + 1) p =
                  { expNode toc m p with children := (expNode toc m p).children ++ [m] } := by
                have hch : childrenBefore toc (m + 1) p = childrenBefore toc m p ++ [m] := by
                  rw [childrenBefore_succ, hsp]
                  simp
                simp [expNode, hch, hpm, (by omega : p < m + 1)]
              rw [hx1]
              rfl
            · rw [List.get?_set_ne _ _ (fun h => hjm h.symm),
                List.get?_set_ne _ _ (fun h => hjp h.symm), get?_map_range_lt _ hjn]
              have hx : expNode toc (m + 1) j = expNode toc m j := by
                have hch : childrenBefore toc (m + 1) j = childrenBefore toc m j := by
                  rw [childrenBefore_succ, hsp]
                  have hne : ¬ p = j := fun h => hjp h.symm
                  simp [hne]
                have hpar : (if j < m + 1 then specParent toc j else none) =
                    (if j < m then specParent toc j else none) := by
                  have hiff : j < m + 1 ↔ j < m := by omega
                  rw [if_congr hiff rfl rfl]
                simp [expNode, hch, hpar]
              rw [hx]
        · rw [get?_map_range_ge _ (le_of_not_lt hjn), List.get?_eq_none]
          simp only [List.length_set, List.length_map, List.length_range]
          omega
      have hroots : rootsBefore toc (m + 1) = rootsBefore toc m := by
        rw [rootsBefore_succ, hsp]
        simp
      have hstacknew : expStack toc (m + 1) =
          (lvl toc m, m) :: (chain toc p).map (fun j => (lvl toc j, j)) := by
        show (chain toc m).map _ = _
        rw [chain_cons, hsp, optChain, List.map_cons]
      rw [harena, hroots, hstacknew, chain_cons]
      rfl
    | none =>
      simp only [buildStep, hnode, hstack1, hsp, optChain, List.map_nil]
      have harena : (List.range toc.length).map (expNode toc m) =
          (List.range toc.length).map (expNode toc (m + 1)) := by
        refine List.map_congr_left ?_
        intro j hj
        rw [List.mem_range] at hj
        have hch : childrenBefore toc (m + 1) j = childrenBefore toc m j := by
          rw [childrenBefore_succ, hsp]
          simp
        have hpar : (if j < m + 1 then specParent toc j else none) =
            (if j < m then specParent toc j else none) := by
          by_cases hjm : j = m
          · rw [hjm]
            simp [hsp, Nat.lt_succ_self]
          · have hiff : j < m + 1 ↔ j < m := by omega
            rw [if_congr hiff rfl rfl]
        simp [expNode, hch, hpar]
      have hroots : rootsBefore toc (m + 1) = rootsBefore toc m ++ [m] := by
        rw [rootsBefore_succ, hsp]
        simp
      have hstacknew : expStack toc (m + 1) = [(lvl toc m, m)] := by
        show (chain toc m).map _ = _
        rw [chain_cons, hsp, optChain, List.map_cons, List.map_nil]
      rw [← harena, hroots, hstacknew]
      rfl


theorem build_toc_tree_eq (toc : List OutlineEntry) :
    build_toc_tree toc =
      ((List.range toc.length).map (expNode toc toc.length), rootsF toc) := by
  simp only [build_toc_tree, baseNodes_eq, List.length_map, List.length_range]
  have hinit : (List.range toc.length).map (baseNode toc) =
      (List.range toc.length).map (expNode toc 0) := by
    refine List.map_congr_left ?_
    intro i _
    rw [expNode_zero]
  rw [hinit, build_loop_invariant toc toc.length le_rfl]
  rfl

theorem arena_length (toc : List OutlineEntry) :
    (build_toc_tree toc).1.length = toc.length := by
  rw [build_toc_tree_eq, List.length_map, List.length_range]

theorem arena_getD {toc : List OutlineEntry} {i : Nat} (h : i < toc.length) :
    (build_toc_tree toc).1.getD i default = expNode toc toc.length i := by
  rw [build_toc_tree_eq]
  exact getD_map_range _ _ h

theorem roots_eq (toc : List OutlineEntry) : (build_toc_tree toc).2 = rootsF toc := by
  rw [build_toc_tree_eq]

theorem node_parent {toc : List OutlineEntry} {i : Nat} (h : i < toc.length) :
    ((build_toc_tree toc).1.getD i default).parent = specParent toc i := by
  rw [arena_getD h]
  simp [expNode, h]

theorem node_children {toc : List OutlineEntry} {i : Nat} (h : i < toc.length) :
    ((build_toc_tree toc).1.getD i default).children = childrenF toc i := by
  rw [arena_getD h]
  rfl

theorem node_level {toc : List OutlineEntry} {i : Nat} (h : i < toc.length) :
    ((build_toc_tree toc).1.getD i default).level = lvl toc i := by
  rw [arena_getD h]
  rfl

theorem node_page {toc : List OutlineEntry} {i : Nat} (h : i < toc.length) :
    ((build_toc_tree toc).1.getD i default).page = pg toc i := by
  rw [arena_getD h]
  rfl

theorem node_title {toc : List OutlineEntry} {i : Nat} (h : i < toc.length) :
    ((build_toc_tree toc).1.getD i default).title = ttl toc i := by
  rw [arena_getD h]
  rfl

theorem node_endPage {toc : List OutlineEntry} {i : Nat} (h : i < toc.length) :
    ((build_toc_tree toc).1.getD i default).endPage = specEndPage toc i := by
  rw [arena_getD h]
  rfl

end TocSeg

namespace TocSeg

theorem specParent_some_iff {toc : List OutlineEntry} {i p : Nat} :
    specParent toc i = some p ↔
      p < i ∧ lvl toc p < lvl toc i ∧ ∀ k, p < k → k < i → lvl toc i ≤ lvl toc k := by
  constructor
  · intro h
    exact ⟨specParent_lt h, specParent_lvl h, specParent_between h⟩
  · rintro ⟨h1, h2, h3⟩
    exact nsvBelow_eq_some h1 h2 h3

theorem specParent_none_iff {toc : List OutlineEntry} {i : Nat} :
    specParent toc i = none ↔ ∀ k, k < i → lvl toc i ≤ lvl toc k := by
  constructor
  · exact specParent_none
  · exact nsvBelow_eq_none

theorem mem_childrenBefore {toc : List OutlineEntry} {m i c : Nat} :
    c ∈ childrenBefore toc m i ↔ c < m ∧ specParent toc c = some i := by
  simp [childrenBefore, List.mem_filter, List.mem_range]

theorem mem_childrenF {toc : List OutlineEntry} {i c : Nat} :
    c ∈ childrenF toc i ↔ c < toc.length ∧ specParent toc c = some i :=
  mem_childrenBefore

theorem childrenF_pairwise (toc : List OutlineEntry) (i : Nat) :
    (childrenF toc i).Pairwise (· < ·) :=
  List.Pairwise.filter _ (List.pairwise_lt_range toc.length)

theorem mem_rootsF {toc : List OutlineEntry} {c : Nat} :
    c ∈ rootsF toc ↔ c < toc.length ∧ specParent toc c = none := by
  simp [rootsF, rootsBefore, List.mem_filter, List.mem_range]

/-- Example outline with skipped and decreasing levels. -/
def tocSkip : List OutlineEntry :=
  [⟨1, "a", 1⟩, ⟨3, "b", 2⟩, ⟨2, "c", 3⟩, ⟨3, "d", 4⟩]

/-- Scenario B outline from the spec: `[(1,Ch1,1), (2,1.1,3), (2,1.2,6)]`. -/
def tocScenB : List OutlineEntry :=
  [⟨1, "Ch1", 1⟩, ⟨2, "1.1", 3⟩, ⟨2, "1.2", 6⟩]

/-- C1: in the forest built by `build_toc_tree`, the parent of the node of
entry `i` is exactly the node of the nearest preceding entry with strictly
smaller level (every entry strictly between has level `≥ lvl i`), the node is
recorded among the children of that parent (children are kept in insertion
order, which is increasing entry order, so the new node is the last child at
the time of insertion), and the node is a root precisely when no preceding
entry has a strictly smaller level. -/
theorem C1_parent_assignment (toc : List OutlineEntry) (i : Nat) (h : i < toc.length) :
    (∀ p, ((build_toc_tree toc).1.getD i default).parent = some p ↔
      p < i ∧ lvl toc p < lvl toc i ∧ ∀ k, p < k → k < i → lvl toc i ≤ lvl toc k) ∧
    (((build_toc_tree toc).1.getD i default).parent = none ↔
      ∀ k, k < i → lvl toc i ≤ lvl toc k) ∧
    (∀ p, ((build_toc_tree toc).1.getD i default).parent = some p →
      ((build_toc_tree toc).1.getD p default).children = childrenF toc p ∧
      i ∈ childrenF toc p ∧ (childrenF toc p).Pairwise (· < ·)) ∧
    (i ∈ (build_toc_tree toc).2 ↔ ((build_toc_tree toc).1.getD i default).parent = none) := by
  rw [node_parent h]
  refine ⟨fun p => specParent_some_iff, specParent_none_iff, ?_, ?_⟩
  · intro p hp
    have hpn : p < toc.length := lt_trans (specParent_lt hp) h
    exact ⟨node_children hpn, mem_childrenF.mpr ⟨h, hp⟩, childrenF_pairwise toc p⟩
  · rw [roots_eq, mem_rootsF]
    constructor
    · exact fun hr => hr.2
    · exact fun hr => ⟨h, hr⟩

/-- Witness for C1 on the outline `[(1,a,1), (3,b,2), (2,c,3), (3,d,4)]`
(levels skip values): entry `3` has parent entry `2`. -/
theorem C1_parent_assignment_witness :
    (3 < tocSkip.length) ∧
    ((∀ p, ((build_toc_tree tocSkip).1.getD 3 default).parent = some p ↔
      p < 3 ∧ lvl tocSkip p < lvl tocSkip 3 ∧
        ∀ k, p < k → k < 3 → lvl tocSkip 3 ≤ lvl tocSkip k) ∧
    (((build_toc_tree tocSkip).1.getD 3 default).parent = none ↔
      ∀ k, k < 3 → lvl tocSkip 3 ≤ lvl tocSkip k) ∧
    (∀ p, ((build_toc_tree tocSkip).1.getD 3 default).parent = some p →
      ((build_toc_tree tocSkip).1.getD p default).children = childrenF tocSkip p ∧
      3 ∈ childrenF tocSkip p ∧ (childrenF tocSkip p).Pairwise (· < ·)) ∧
    (3 ∈ (build_toc_tree tocSkip).2 ↔
      ((build_toc_tree tocSkip).1.getD 3 default).parent = none)) :=
  ⟨by decide, C1_parent_assignment tocSkip 3 (by decide)⟩

theorem find?_some_char {α : Type} (p : α → Bool) :
    ∀ (l : List α) (a : α), l.find? p = some a ↔
      ∃ k, l.get? k = some a ∧ p a = true ∧
        ∀ m, m < k → ∀ b, l.get? m = some b → p b = false := by
  intro l
  induction l with
  | nil => simp
  | cons x xs ih =>
    intro a
    by_cases hx : p x
    · rw [List.find?_cons_of_pos _ hx]
      constructor
      · intro hs
        rw [Option.some.injEq] at hs
        subst hs
        exact ⟨0, rfl, hx, fun m hm => by omega⟩
      · rintro ⟨k, hk, hpa, hall⟩
        cases k with
        | zero =>
          rw [List.get?_cons_zero, Option.some.injEq] at hk
          rw [hk]
        | succ k' =>
          have h0 := hall 0 (Nat.succ_pos k') x rfl
          simp [h0] at hx
    · rw [List.find?_cons_of_neg _ hx, ih a]
      constructor
      · rintro ⟨k, hk, hpa, hall⟩
        refine ⟨k + 1, by simpa using hk, hpa, ?_⟩
        intro m hm b hb
        cases m with
        | zero =>
          rw [List.get?_cons_zero, Option.some.injEq] at hb
          subst hb
          exact Bool.of_not_eq_true hx
        | succ m' =>
          exact hall m' (by omega) b (by simpa using hb)
      · rintro ⟨k, hk, hpa, hall⟩
        cases k with
        | zero =>
          rw [List.get?_cons_zero, Option.some.injEq] at hk
          subst hk
          exact absurd hpa hx
        | succ k' =>
          refine ⟨k', by simpa using hk, hpa, ?_⟩
          intro m hm b hb
          exact hall (m + 1) (by omega) b (by simpa using hb)

/-- The node created for entry `j` before the end-page pass. -/
def entryNode (toc : List OutlineEntry) (j : Nat) : TOCNode :=
  { level := lvl toc j, title := ttl toc j, page := pg toc j, idx := j + 1 }

theorem mkNodes_get? {toc : List OutlineEntry} {j : Nat} (h : j < toc.length) :
    (mkNodes toc).get? j = some (entryNode toc j) := by
  unfold mkNodes
  rw [get?_map_range_lt _ h]
  rfl

theorem specEndPage_some_iff {toc : List OutlineEntry} {i : Nat} (e : Int) :
    specEndPage toc i = some e ↔
      ∃ j, i < j ∧ j < toc.length ∧ lvl toc j ≤ lvl toc i ∧ pg toc j = e ∧
        ∀ k, i < k → k < j → lvl toc i < lvl toc k := by
  unfold specEndPage
  rw [Option.map_eq_some']
  constructor
  · rintro ⟨nd, hfind, hpage⟩
    rw [find?_some_char] at hfind
    rcases hfind with ⟨k, hk, hpred, hall⟩
    rw [List.get?_drop] at hk
    have hjn : i + 1 + k < toc.length := by
      by_contra hge
      rw [List.get?_eq_none.mpr (mkNodes_length toc ▸ le_of_not_lt hge)] at hk
      exact Option.noConfusion hk
    rw [mkNodes_get? hjn, Option.some.injEq] at hk
    refine ⟨i + 1 + k, by omega, hjn, ?_, ?_, ?_⟩
    · have := hpred
      rw [← hk] at this
      simpa using this
    · rw [← hk] at hpage
      exact hpage
    · intro t hit htj
      have htn : t < toc.length := by omega
      have := hall (t - i - 1) (by omega) _ (by
        rw [List.get?_drop, show i + 1 + (t - i - 1) = t by omega]
        exact mkNodes_get? htn)
      simp only [decide_eq_false_iff_not, not_le] at this
      exact this
  · rintro ⟨j, hij, hjn, hlvl, hpg, hbetween⟩
    refine ⟨entryNode toc j, ?_, hpg⟩
    rw [find?_some_char]
    refine ⟨j - i - 1, ?_, by simpa using hlvl, ?_⟩
    · rw [List.get?_drop, show i + 1 + (j - i - 1) = j by omega]
      exact mkNodes_get? hjn
    · intro m hm b hb
      rw [List.get?_drop] at hb
      have hbn : i + 1 + m < toc.length := by
        by_contra hge
        rw [List.get?_eq_none.mpr (mkNodes_length toc ▸ le_of_not_lt hge)] at hb
        exact Option.noConfusion hb
      rw [mkNodes_get? hbn, Option.some.injEq] at hb
      have := hbetween (i + 1 + m) (by omega) (by omega)
      rw [← hb]
      simpa using not_le.mpr this

theorem specEndPage_none_iff {toc : List OutlineEntry} {i : Nat} :
    specEndPage toc i = none ↔ ∀ j, i < j → j < toc.length → lvl toc i < lvl toc j := by
  unfold specEndPage
  rw [Option.map_eq_none', List.find?_eq_none]
  constructor
  · intro hall j hij hjn
    have hget : ((mkNodes toc).drop (i + 1)).get? (j - i - 1) = some (entryNode toc j) := by
      rw [List.get?_drop, show i + 1 + (j - i - 1) = j by omega]
      exact mkNodes_get? hjn
    have hmem : entryNode toc j ∈ (mkNodes toc).drop (i + 1) :=
      List.mem_iff_get?.mpr ⟨j - i - 1, hget⟩
    have := hall _ hmem
    simp only [entryNode, decide_eq_true_eq] at this
    exact lt_of_not_le this
  · intro hall nd hmem
    rcases List.mem_iff_get?.mp hmem with ⟨k, hk⟩
    rw [List.get?_drop] at hk
    have hjn : i + 1 + k < toc.length := by
      by_contra hge
      rw [List.get?_eq_none.mpr (mkNodes_length toc ▸ le_of_not_lt hge)] at hk
      exact Option.noConfusion hk
    rw [mkNodes_get? hjn, Option.some.injEq] at hk
    have hlt := hall (i + 1 + k) (by omega) hjn
    rw [← hk]
    simp only [entryNode, decide_eq_true_eq]
    exact not_le.mpr hlt

end TocSeg

namespace TocSeg

/-- C2 as stated is false: for the outline `[(1,A,10), (1,B,3)]` (malformed,
non-monotonic pages) the node of entry `0` gets `end_page = 3`, which is
smaller than its `start_page = 10`. -/
theorem C2_counterexample :
    ((build_toc_tree [⟨1, "A", 10⟩, ⟨1, "B", 3⟩]).1.getD 0 default).endPage = some 3 ∧
    pg [⟨1, "A", 10⟩, ⟨1, "B", 3⟩] 0 = 10 ∧ ¬ ((10 : Int) ≤ (3 : Int)) := by
  decide

/-- C2 (amended): `end_page` always equals the `start_page` of the first later
entry (in sequence order) whose level is `≤` the own level, and is left open
(`none`, resolved to document length downstream) when no such entry exists.
The monotonicity `end_page ≥ start_page` additionally requires the pages of
the outline to be non-decreasing in sequence order (and, for the open case,
a document length of at least every outline page); it fails for arbitrary
outlines, see the counterexample. -/
theorem C2_end_page (toc : List OutlineEntry) (i : Nat) (h : i < toc.length) :
    (∀ e, ((build_toc_tree toc).1.getD i default).endPage = some e ↔
      ∃ j, i < j ∧ j < toc.length ∧ lvl toc j ≤ lvl toc i ∧ pg toc j = e ∧
        ∀ k, i < k → k < j → lvl toc i < lvl toc k) ∧
    (((build_toc_tree toc).1.getD i default).endPage = none ↔
      ∀ j, i < j → j < toc.length → lvl toc i < lvl toc j) ∧
    ((∀ a b, a ≤ b → b < toc.length → pg toc a ≤ pg toc b) →
      ∀ docLen : Int, (∀ k, k < toc.length → pg toc k ≤ docLen) →
        pg toc i ≤ (((build_toc_tree toc).1.getD i default).endPage.getD docLen)) := by
  rw [node_endPage h]
  refine ⟨fun e => specEndPage_some_iff e, specEndPage_none_iff, ?_⟩
  intro hmono docLen hbound
  cases hep : specEndPage toc i with
  | none => simpa using hbound i h
  | some e =>
    rcases (specEndPage_some_iff e).mp hep with ⟨j, hij, hjn, _, hpg, _⟩
    have := hmono i j (le_of_lt hij) hjn
    rw [hpg] at this
    simpa using this

/-- Witness for C2 on Scenario B at entry `1`. -/
theorem C2_end_page_witness :
    (1 < tocScenB.length) ∧
    ((∀ e, ((build_toc_tree tocScenB).1.getD 1 default).endPage = some e ↔
      ∃ j, 1 < j ∧ j < tocScenB.length ∧ lvl tocScenB j ≤ lvl tocScenB 1 ∧
        pg tocScenB j = e ∧ ∀ k, 1 < k → k < j → lvl tocScenB 1 < lvl tocScenB k) ∧
    (((build_toc_tree tocScenB).1.getD 1 default).endPage = none ↔
      ∀ j, 1 < j → j < tocScenB.length → lvl tocScenB 1 < lvl tocScenB j) ∧
    ((∀ a b, a ≤ b → b < tocScenB.length → pg tocScenB a ≤ pg tocScenB b) →
      ∀ docLen : Int, (∀ k, k < tocScenB.length → pg tocScenB k ≤ docLen) →
        pg tocScenB 1 ≤ (((build_toc_tree tocScenB).1.getD 1 default).endPage.getD docLen))) :=
  ⟨by decide, C2_end_page tocScenB 1 (by decide)⟩

end TocSeg

namespace TocSeg

/-- Scan for the first index `≥ j` whose level is `≤ x`; returns `j` itself
once the fuel runs out or `j` leaves the list (so with fuel `toc.length` and
`j ≤ toc.length` the result is `toc.length` when there is no hit). -/
def closeAux (toc : List OutlineEntry) (x : Int) : Nat → Nat → Nat
  | 0, j => j
  | fuel + 1, j =>
    if j < toc.length then (if lvl toc j ≤ x then j else closeAux toc x fuel (j + 1)) else j

/-- The first index after `i` whose level is `≤ lvl toc i`, or `toc.length`
when there is none: the subtree of entry `i` is exactly the index block
`[i, close toc i)`. -/
def close (toc : List OutlineEntry) (i : Nat) : Nat :=
  closeAux toc (lvl toc i) toc.length (i + 1)

theorem closeAux_spec (toc : List OutlineEntry) (x : Int) :
    ∀ fuel j, toc.length ≤ j + fuel → j ≤ toc.length →
      j ≤ closeAux toc x fuel j ∧ closeAux toc x fuel j ≤ toc.length ∧
      (∀ k, j ≤ k → k < closeAux toc x fuel j → x < lvl toc k) ∧
      (closeAux toc x fuel j < toc.length → lvl toc (closeAux toc x fuel j) ≤ x) := by
  intro fuel
  induction fuel with
  | zero =>
    intro j h1 h2
    refine ⟨le_rfl, h2, fun k hk1 hk2 => absurd hk2 (by simp [closeAux]; omega), ?_⟩
    intro hlt
    simp [closeAux] at hlt
    omega
  | succ fuel ih =>
    intro j h1 h2
    by_cases hj : j < toc.length
    · by_cases hl : lvl toc j ≤ x
      · simp only [closeAux, if_pos hj, if_pos hl]
        exact ⟨le_rfl, h2, fun k hk1 hk2 => by omega, fun _ => hl⟩
      · simp only [closeAux, if_pos hj, if_neg hl]
        obtain ⟨ih1, ih2, ih3, ih4⟩ := ih (j + 1) (by omega) (by omega)
        refine ⟨by omega, ih2, ?_, ih4⟩
        intro k hk1 hk2
        rcases Nat.eq_or_lt_of_le hk1 with rfl | hk
        · exact lt_of_not_le hl
        · exact ih3 k hk hk2
    · simp only [closeAux, if_neg hj]
      exact ⟨le_rfl, h2, fun k hk1 hk2 => by omega, fun hlt => absurd hlt hj⟩

theorem close_gt {toc : List OutlineEntry} {i : Nat} (h : i < toc.length) :
    i < close toc i :=
  (closeAux_spec toc (lvl toc i) toc.length (i + 1) (by omega) (by omega)).1

theorem close_le {toc : List OutlineEntry} {i : Nat} (h : i < toc.length) :
    close toc i ≤ toc.length :=
  (closeAux_spec toc (lvl toc i) toc.length (i + 1) (by omega) (by omega)).2.1

theorem close_between {toc : List OutlineEntry} {i : Nat} (h : i < toc.length) :
    ∀ k, i < k → k < close toc i → lvl toc i < lvl toc k := by
  intro k hk1 hk2
  exact (closeAux_spec toc (lvl toc i) toc.length (i + 1) (by omega)
    (by omega)).2.2.1 k (by omega) hk2

theorem close_lvl {toc : List OutlineEntry} {i : Nat} (h : i < toc.length)
    (hc : close toc i < toc.length) : lvl toc (close toc i) ≤ lvl toc i :=
  (closeAux_spec toc (lvl toc i) toc.length (i + 1) (by omega) (by omega)).2.2.2 hc

theorem close_min {toc : List OutlineEntry} {i j : Nat} (h : i < toc.length)
    (hij : i < j) (hlvl : lvl toc j ≤ lvl toc i) : close toc i ≤ j := by
  by_contra hgt
  exact absurd hlvl (not_le.mpr (close_between h j hij (lt_of_not_le hgt)))

theorem specEndPage_close {toc : List OutlineEntry} {i : Nat} (h : i < toc.length) :
    specEndPage toc i =
      if close toc i < toc.length then some (pg toc (close toc i)) else none := by
  by_cases hc : close toc i < toc.length
  · rw [if_pos hc]
    exact (specEndPage_some_iff _).mpr
      ⟨close toc i, close_gt h, hc, close_lvl h hc, rfl, close_between h⟩
  · rw [if_neg hc]
    refine specEndPage_none_iff.mpr ?_
    intro j hij hjn
    exact close_between h j hij (by omega)

theorem child_in_block {toc : List OutlineEntry} {i c : Nat}
    (hc : specParent toc c = some i) (hcn : c < toc.length) :
    i < c ∧ c < close toc i := by
  have hic := specParent_lt hc
  have hlv := specParent_lvl hc
  refine ⟨hic, ?_⟩
  by_contra hge
  have hclt : close toc i < toc.length := by omega
  have hin : i < toc.length := by omega
  rcases Nat.eq_or_lt_of_le (le_of_not_lt hge) with heq | hlt
  · exact absurd (heq ▸ close_lvl hin hclt) (not_le.mpr hlv)
  · have := specParent_between hc (close toc i) (close_gt hin) hlt
    exact absurd (le_trans this (close_lvl hin hclt)) (not_le.mpr hlv)

theorem first_child_parent {toc : List OutlineEntry} {i c : Nat}
    (hc : specParent toc c = some i) (hcn : c < toc.length) :
    specParent toc (i + 1) = some i := by
  have hic := specParent_lt hc
  rcases Nat.eq_or_lt_of_le hic with heq | hlt
  · rw [show i + 1 = c by omega]
    exact hc
  · have hlv1 : lvl toc c ≤ lvl toc (i + 1) := specParent_between hc (i + 1) (by omega) hlt
    refine specParent_some_iff.mpr ⟨by omega, lt_of_lt_of_le (specParent_lvl hc) hlv1, ?_⟩
    intro k hk1 hk2
    omega

theorem head?_of_min {l : List Nat} {x : Nat} (hp : l.Pairwise (· < ·)) (hx : x ∈ l)
    (hmin : ∀ y ∈ l, x ≤ y) : l.head? = some x := by
  cases l with
  | nil => cases hx
  | cons a as =>
    rcases List.mem_cons.mp hx with rfl | has
    · rfl
    · have h1 : a < x := (List.pairwise_cons.mp hp).1 x has
      have h2 : x ≤ a := hmin a (List.mem_cons_self a as)
      omega

theorem childrenF_head {toc : List OutlineEntry} {i : Nat}
    (hne : childrenF toc i ≠ []) : (childrenF toc i).head? = some (i + 1) := by
  obtain ⟨c, hc⟩ := List.exists_mem_of_ne_nil _ hne
  obtain ⟨hcn, hcp⟩ := mem_childrenF.mp hc
  have h1 : specParent toc (i + 1) = some i := first_child_parent hcp hcn
  have hle : i + 1 ≤ c := specParent_lt hcp
  refine head?_of_min (childrenF_pairwise toc i)
    (mem_childrenF.mpr ⟨by omega, h1⟩) ?_
  intro y hy
  exact Nat.succ_le_of_lt (specParent_lt (mem_childrenF.mp hy).2)

theorem close_eq_next_child {toc : List OutlineEntry} {i c c' : Nat} {l₁ l₂ : List Nat}
    (hdec : childrenF toc i = l₁ ++ c :: c' :: l₂) : close toc c = c' := by
  have hpw : (l₁ ++ c :: c' :: l₂).Pairwise (· < ·) := hdec ▸ childrenF_pairwise toc i
  have hcc : c < c' := by
    rcases List.pairwise_append.mp hpw with ⟨_, hp2, _⟩
    exact (List.pairwise_cons.mp hp2).1 c' (List.mem_cons_self c' l₂)
  have hcmem : c ∈ childrenF toc i := by
    rw [hdec]
    simp
  have hcmem' : c' ∈ childrenF toc i := by
    rw [hdec]
    simp
  obtain ⟨hcn, hcp⟩ := mem_childrenF.mp hcmem
  obtain ⟨hcn', hcp'⟩ := mem_childrenF.mp hcmem'
  have hic := specParent_lt hcp
  have hlvcc : lvl toc c' ≤ lvl toc c := specParent_between hcp' c hic hcc
  have hclose_le : close toc c ≤ c' := close_min hcn hcc hlvcc
  rcases Nat.eq_or_lt_of_le hclose_le with heq | hlt
  · exact heq
  · exfalso
    have hcgt : c < close toc c := close_gt hcn
    have hclon : close toc c < toc.length := by omega
    have hin : i < toc.length := by omega
    have hcloselt : close toc c < close toc i := lt_trans hlt (child_in_block hcp' hcn').2
    have hmidp : specParent toc (close toc c) = some i := by
      refine specParent_some_iff.mpr ⟨by omega, ?_, ?_⟩
      · exact close_between hin (close toc c) (by omega) hcloselt
      · intro k hk1 hk2
        have hmv : lvl toc (close toc c) ≤ lvl toc c := close_lvl hcn hclon
        rcases Nat.lt_or_ge k c with hkc | hkc
        · exact le_trans hmv (specParent_between hcp k hk1 hkc)
        · rcases Nat.eq_or_lt_of_le hkc with rfl | hkc2
          · exact hmv
          · exact le_trans hmv (le_of_lt (close_between hcn k hkc2 hk2))
    have hmidmem : close toc c ∈ childrenF toc i := mem_childrenF.mpr ⟨hclon, hmidp⟩
    rw [hdec] at hmidmem
    rcases List.pairwise_append.mp hpw with ⟨_, hp2, hcross⟩
    rcases List.mem_append.mp hmidmem with hm1 | hm2
    · exact absurd (hcross _ hm1 c (List.mem_cons_self c _)) (by omega)
    · rcases List.mem_cons.mp hm2 with heq | hm3
      · omega
      · rcases List.mem_cons.mp hm3 with heq | hm4
        · omega
        · have := (List.pairwise_cons.mp (List.pairwise_cons.mp hp2).2).1 _ hm4
          have hcr := (List.pairwise_cons.mp hp2).1 _ (List.mem_cons_of_mem c' hm4)
          omega

theorem close_eq_last_child {toc : List OutlineEntry} {i c : Nat} {l₁ : List Nat}
    (hin : i < toc.length) (hdec : childrenF toc i = l₁ ++ [c]) :
    close toc c = close toc i := by
  have hcmem : c ∈ childrenF toc i := by
    rw [hdec]
    simp
  obtain ⟨hcn, hcp⟩ := mem_childrenF.mp hcmem
  have hblock := child_in_block hcp hcn
  have hle : close toc c ≤ close toc i := by
    by_cases hci : close toc i < toc.length
    · exact close_min hcn hblock.2
        (le_trans (close_lvl hin hci) (le_of_lt (specParent_lvl hcp)))
    · have := close_le hcn
      omega
  rcases Nat.eq_or_lt_of_le hle with heq | hlt
  · exact heq
  · exfalso
    have hclon : close toc c < toc.length := lt_of_lt_of_le hlt (close_le hin)
    have hcgt : c < close toc c := close_gt hcn
    have hmidp : specParent toc (close toc c) = some i := by
      refine specParent_some_iff.mpr ⟨by omega, ?_, ?_⟩
      · exact close_between hin (close toc c) (by omega) hlt
      · intro k hk1 hk2
        have hmv : lvl toc (close toc c) ≤ lvl toc c := close_lvl hcn hclon
        rcases Nat.lt_or_ge k c with hkc | hkc
        · exact le_trans hmv (specParent_between hcp k hk1 hkc)
        · rcases Nat.eq_or_lt_of_le hkc with rfl | hkc2
          · exact hmv
          · exact le_trans hmv (le_of_lt (close_between hcn k hkc2 hk2))
    have hmidmem : close toc c ∈ childrenF toc i := mem_childrenF.mpr ⟨hclon, hmidp⟩
    rw [hdec] at hmidmem
    have hpw : (l₁ ++ [c]).Pairwise (· < ·) := hdec ▸ childrenF_pairwise toc i
    rcases List.mem_append.mp hmidmem with hm1 | hm2
    · rcases List.pairwise_append.mp hpw with ⟨_, _, hcross⟩
      exact absurd (hcross _ hm1 c (List.mem_cons_self c [])) (by omega)
    · rcases List.mem_cons.mp hm2 with heq | hm3
      · omega
      · cases hm3

theorem childrenF_empty_iff {toc : List OutlineEntry} {i : Nat} (h : i < toc.length) :
    childrenF toc i = [] ↔ close toc i = i + 1 := by
  constructor
  · intro hempty
    rcases Nat.eq_or_lt_of_le (Nat.succ_le_of_lt (close_gt h)) with heq | hlt
    · omega
    · exfalso
      have hi1n : i + 1 < toc.length := lt_of_lt_of_le hlt (close_le h)
      have hlv : lvl toc i < lvl toc (i + 1) := close_between h (i + 1) (by omega) hlt
      have hp : specParent toc (i + 1) = some i :=
        specParent_some_iff.mpr ⟨by omega, hlv, fun k hk1 hk2 => by omega⟩
      have := mem_childrenF.mpr ⟨hi1n, hp⟩
      rw [hempty] at this
      cases this
  · intro hclose
    rw [List.eq_nil_iff_forall_not_mem]
    intro c hc
    obtain ⟨hcn, hcp⟩ := mem_childrenF.mp hc
    have := child_in_block hcp hcn
    omega

end TocSeg

namespace TocSeg

theorem range'_split {a b c : Nat} (h1 : a ≤ b) (h2 : b ≤ c) :
    List.range' a (c - a) = List.range' a (b - a) ++ List.range' b (c - b) := by
  have := List.range'_append a (b - a) (c - b) 1
  rw [show a + 1 * (b - a) = b by omega, show c - b + (b - a) = c - a by omega] at this
  exact this.symm

theorem block_union (toc : List OutlineEntry) {i : Nat} (hin : i < toc.length) :
    ∀ (l₂ : List Nat) (c : Nat) (l₁ : List Nat), childrenF toc i = l₁ ++ c :: l₂ →
      List.range' c (close toc i - c) =
        (c :: l₂).flatMap (fun d => List.range' d (close toc d - d)) := by
  intro l₂
  induction l₂ with
  | nil =>
    intro c l₁ hdec
    rw [List.flatMap_cons, List.flatMap_nil, List.append_nil,
      close_eq_last_child hin hdec]
  | cons c' l₂' ih =>
    intro c l₁ hdec
    have hnext : close toc c = c' := close_eq_next_child hdec
    have hc'mem : c' ∈ childrenF toc i := by
      rw [hdec]
      simp
    obtain ⟨hc'n, hc'p⟩ := mem_childrenF.mp hc'mem
    have hc'block := child_in_block hc'p hc'n
    have hcmem : c ∈ childrenF toc i := by
      rw [hdec]
      simp
    obtain ⟨hcn, hcp⟩ := mem_childrenF.mp hcmem
    have hcc : c < c' := by
      have := close_gt hcn
      omega
    have hsplit : List.range' c (close toc i - c) =
        List.range' c (c' - c) ++ List.range' c' (close toc i - c') :=
      range'_split (le_of_lt hcc) (le_of_lt hc'block.2)
    rw [hsplit, List.flatMap_cons, ih c' (l₁ ++ [c]) (by rw [hdec]; simp), hnext]

theorem mem_rootsBefore {toc : List OutlineEntry} {m c : Nat} :
    c ∈ rootsBefore toc m ↔ c < m ∧ specParent toc c = none := by
  simp [rootsBefore, List.mem_filter, List.mem_range]

theorem rootsF_pairwise (toc : List OutlineEntry) : (rootsF toc).Pairwise (· < ·) :=
  List.Pairwise.filter _ (List.pairwise_lt_range toc.length)

theorem close_eq_next_root {toc : List OutlineEntry} {r r' : Nat} {l₁ l₂ : List Nat}
    (hdec : rootsF toc = l₁ ++ r :: r' :: l₂) : close toc r = r' := by
  have hpw : (l₁ ++ r :: r' :: l₂).Pairwise (· < ·) := hdec ▸ rootsF_pairwise toc
  have hrr : r < r' := by
    rcases List.pairwise_append.mp hpw with ⟨_, hp2, _⟩
    exact (List.pairwise_cons.mp hp2).1 r' (List.mem_cons_self r' l₂)
  have hrmem : r ∈ rootsF toc := by
    rw [hdec]
    simp
  have hrmem' : r' ∈ rootsF toc := by
    rw [hdec]
    simp
  obtain ⟨hrn, hrp⟩ := mem_rootsBefore.mp hrmem
  obtain ⟨hrn', hrp'⟩ := mem_rootsBefore.mp hrmem'
  have hlvrr : lvl toc r' ≤ lvl toc r := specParent_none hrp' r hrr
  have hclose_le : close toc r ≤ r' := close_min hrn hrr hlvrr
  rcases Nat.eq_or_lt_of_le hclose_le with heq | hlt
  · exact heq
  · exfalso
    have hrgt : r < close toc r := close_gt hrn
    have hclon : close toc r < toc.length := by omega
    have hmidp : specParent toc (close toc r) = none := by
      refine specParent_none_iff.mpr ?_
      intro k hk
      have hmv : lvl toc (close toc r) ≤ lvl toc r := close_lvl hrn hclon
      rcases Nat.lt_or_ge k r with hkr | hkr
      · exact le_trans hmv (specParent_none hrp k hkr)
      · rcases Nat.eq_or_lt_of_le hkr with rfl | hkr2
        · exact hmv
        · exact le_trans hmv (le_of_lt (close_between hrn k hkr2 hk))
    have hmidmem : close toc r ∈ rootsF toc := mem_rootsBefore.mpr ⟨hclon, hmidp⟩
    rw [hdec] at hmidmem
    rcases List.pairwise_append.mp hpw with ⟨_, hp2, hcross⟩
    rcases List.mem_append.mp hmidmem with hm1 | hm2
    · exact absurd (hcross _ hm1 r (List.mem_cons_self r _)) (by omega)
    · rcases List.mem_cons.mp hm2 with heq | hm3
      · omega
      · rcases List.mem_cons.mp hm3 with heq | hm4
        · omega
        · have := (List.pairwise_cons.mp (List.pairwise_cons.mp hp2).2).1 _ hm4
          have hcr := (List.pairwise_cons.mp hp2).1 _ (List.mem_cons_of_mem r' hm4)
          omega

theorem close_eq_last_root {toc : List OutlineEntry} {r : Nat} {l₁ : List Nat}
    (hdec : rootsF toc = l₁ ++ [r]) : close toc r = toc.length := by
  have hrmem : r ∈ rootsF toc := by
    rw [hdec]
    simp
  obtain ⟨hrn, hrp⟩ := mem_rootsBefore.mp hrmem
  rcases Nat.eq_or_lt_of_le (close_le hrn) with heq | hlt
  · omega
  · exfalso
    have hrgt : r < close toc r := close_gt hrn
    have hmidp : specParent toc (close toc r) = none := by
      refine specParent_none_iff.mpr ?_
      intro k hk
      have hmv : lvl toc (close toc r) ≤ lvl toc r := close_lvl hrn hlt
      rcases Nat.lt_or_ge k r with hkr | hkr
      · exact le_trans hmv (specParent_none hrp k hkr)
      · rcases Nat.eq_or_lt_of_le hkr with rfl | hkr2
        · exact hmv
        · exact le_trans hmv (le_of_lt (close_between hrn k hkr2 hk))
    have hmidmem : close toc r ∈ rootsF toc := mem_rootsBefore.mpr ⟨hlt, hmidp⟩
    rw [hdec] at hmidmem
    have hpw : (l₁ ++ [r]).Pairwise (· < ·) := hdec ▸ rootsF_pairwise toc
    rcases List.mem_append.mp hmidmem with hm1 | hm2
    · rcases List.pairwise_append.mp hpw with ⟨_, _, hcross⟩
      exact absurd (hcross _ hm1 r (List.mem_cons_self r [])) (by omega)
    · rcases List.mem_cons.mp hm2 with heq | hm3
      · omega
      · cases hm3

theorem roots_union (toc : List OutlineEntry) :
    ∀ (l₂ : List Nat) (r : Nat) (l₁ : List Nat), rootsF toc = l₁ ++ r :: l₂ →
      List.range' r (toc.length - r) =
        (r :: l₂).flatMap (fun d => List.range' d (close toc d - d)) := by
  intro l₂
  induction l₂ with
  | nil =>
    intro r l₁ hdec
    rw [List.flatMap_cons, List.flatMap_nil, List.append_nil, close_eq_last_root hdec]
  | cons r' l₂' ih =>
    intro r l₁ hdec
    have hnext : close toc r = r' := close_eq_next_root hdec
    have hr'mem : r' ∈ rootsF toc := by
      rw [hdec]
      simp
    obtain ⟨hr'n, _⟩ := mem_rootsBefore.mp hr'mem
    have hrmem : r ∈ rootsF toc := by
      rw [hdec]
      simp
    obtain ⟨hrn, _⟩ := mem_rootsBefore.mp hrmem
    have hrr : r < r' := by
      have := close_gt hrn
      omega
    have hsplit : List.range' r (toc.length - r) =
        List.range' r (r' - r) ++ List.range' r' (toc.length - r') :=
      range'_split (le_of_lt hrr) (le_of_lt hr'n)
    rw [hsplit, List.flatMap_cons, ih r' (l₁ ++ [r]) (by rw [hdec]; simp), hnext]

theorem rootsF_head {toc : List OutlineEntry} (h : toc ≠ []) :
    (rootsF toc).head? = some 0 := by
  have h0 : (0 : Nat) < toc.length := List.length_pos.mpr h
  refine head?_of_min (rootsF_pairwise toc) (mem_rootsBefore.mpr ⟨h0, specParent_zero⟩) ?_
  intro y _
  omega

theorem traverse_eq (toc : List OutlineEntry) :
    ∀ (N i fuel : Nat), i < toc.length → close toc i - i ≤ N → close toc i - i ≤ fuel →
      traverseLeaves (build_toc_tree toc).1 fuel i =
        (List.range' i (close toc i - i)).filter
          (fun j => decide (childrenF toc j = [])) := by
  intro N
  induction N using Nat.strong_induction_on with
  | _ N ih =>
    intro i fuel hin hN hfuel
    have hgt := close_gt hin
    cases fuel with
    | zero => omega
    | succ f =>
      simp only [traverseLeaves]
      rw [node_children hin]
      by_cases hleaf : childrenF toc i = []
      · rw [if_pos hleaf, (childrenF_empty_iff hin).mp hleaf]
        simp [hleaf]
      · rw [if_neg hleaf]
        rcases hcs : childrenF toc i with _ | ⟨c, tail⟩
        · exact absurd hcs hleaf
        · have hc1 : c = i + 1 := by
            have hh := @childrenF_head toc i (by rw [hcs]; simp)
            rw [hcs] at hh
            simpa using hh
          have hcmem : c ∈ childrenF toc i := by
            rw [hcs]
            simp
          obtain ⟨hcn, hcp⟩ := mem_childrenF.mp hcmem
          have hrange : List.range' i (close toc i - i) =
              i :: List.range' c (close toc i - c) := by
            rw [show close toc i - i = (close toc i - c) + 1 by omega, List.range'_succ]
            rw [hc1]
          rw [hrange, List.filter_cons, show (decide (childrenF toc i = [])) = false
            by simpa using hleaf]
          rw [block_union toc hin tail c [] (by rw [hcs]; rfl), List.filter_flatMap]
          refine List.flatMap_congr ?_
          intro d hd
          have hdmem : d ∈ childrenF toc i := by
            rw [hcs]
            exact hd
          obtain ⟨hdn, hdp⟩ := mem_childrenF.mp hdmem
          have hdblock := child_in_block hdp hdn
          have hdclose : close toc d ≤ close toc i := by
            by_cases hci : close toc i < toc.length
            · exact close_min hdn hdblock.2
                (le_trans (close_lvl hin hci) (le_of_lt (specParent_lvl hdp)))
            · have := close_le hdn
              omega
          exact ih (close toc d - d) (by omega) d f hdn le_rfl (by omega)

theorem collect_eq (toc : List OutlineEntry) :
    collect_leaf_nodes (build_toc_tree toc).1 (build_toc_tree toc).2 =
      (List.range toc.length).filter (fun j => decide (childrenF toc j = [])) := by
  unfold collect_leaf_nodes
  rw [roots_eq, arena_length]
  rcases hr : rootsF toc with _ | ⟨r, rest⟩
  · have hnil : toc = [] := by
      by_contra hne
      have := rootsF_head hne
      rw [hr] at this
      cases this
    rw [hnil]
    rfl
  · have hne : toc ≠ [] := by
      intro hnil
      rw [hnil] at hr
      cases hr
    have hr0 : r = 0 := by
      have hh := rootsF_head hne
      rw [hr] at hh
      simpa using hh
    subst hr0
    have hcover := roots_union toc rest 0 [] (by rw [hr]; rfl)
    have hrange0 : List.range toc.length = List.range' 0 (toc.length - 0) := by
      rw [Nat.sub_zero]
      exact List.range_eq_range' toc.length
    rw [hrange0, hcover, List.filter_flatMap]
    refine List.flatMap_congr ?_
    intro d hd
    have hdmem : d ∈ rootsF toc := by
      rw [hr]
      exact hd
    obtain ⟨hdn, _⟩ := mem_rootsBefore.mp hdmem
    exact traverse_eq toc toc.length d toc.length hdn
      (by have := close_le hdn; omega) (by have := close_le hdn; omega)

/-- C6: `collect_leaf_nodes` on a forest built by `build_toc_tree` returns
exactly the nodes with empty `children`.  For these forests the depth-first
pre-order with children visited in stored (original outline) order coincides
with increasing entry order, so the result is the increasing list of all leaf
indices; determinism across runs is immediate because the embedding is a pure
function of its input. -/
theorem C6_collect_leaf_nodes (toc : List OutlineEntry) :
    collect_leaf_nodes (build_toc_tree toc).1 (build_toc_tree toc).2 =
      (List.range toc.length).filter
        (fun j => decide (((build_toc_tree toc).1.getD j default).children = [])) := by
  rw [collect_eq]
  refine List.filter_congr ?_
  intro j hj
  rw [List.mem_range] at hj
  rw [node_children hj]

/-- C10: for a non-empty outline, the node of the last entry has no children,
and the leaf list is non-empty with that node as its last element. -/
theorem C10_last_entry_leaf (toc : List OutlineEntry) (h : toc ≠ []) :
    ((build_toc_tree toc).1.getD (toc.length - 1) default).children = [] ∧
    collect_leaf_nodes (build_toc_tree toc).1 (build_toc_tree toc).2 ≠ [] ∧
    (collect_leaf_nodes (build_toc_tree toc).1 (build_toc_tree toc).2).getLast? =
      some (toc.length - 1) := by
  have hn : 0 < toc.length := List.length_pos.mpr h
  have hlast : childrenF toc (toc.length - 1) = [] := by
    rw [List.eq_nil_iff_forall_not_mem]
    intro c hc
    obtain ⟨hcn, hcp⟩ := mem_childrenF.mp hc
    have := specParent_lt hcp
    omega
  have hchild : ((build_toc_tree toc).1.getD (toc.length - 1) default).children = [] := by
    rw [node_children (by omega)]
    exact hlast
  refine ⟨hchild, ?_, ?_⟩
  · rw [collect_eq]
    intro hnil
    have hmem : toc.length - 1 ∈ (List.range toc.length).filter
        (fun j => decide (childrenF toc j = [])) := by
      rw [List.mem_filter, List.mem_range]
      exact ⟨by omega, by simpa using hlast⟩
    rw [hnil] at hmem
    cases hmem
  · rw [collect_eq, show toc.length = (toc.length - 1) + 1 by omega, List.range_succ,
      List.filter_append]
    rw [show (toc.length - 1) + 1 - 1 = toc.length - 1 by omega]
    have hfl : List.filter (fun j => decide (childrenF toc j = [])) [toc.length - 1] =
        [toc.length - 1] := by
      simp [hlast]
    rw [hfl, List.getLast?_concat]

/-- Witness for C10 on Scenario B: the last entry (index `2`) is a leaf and is
the last collected leaf. -/
theorem C10_last_entry_leaf_witness :
    (tocScenB ≠ []) ∧
    (((build_toc_tree tocScenB).1.getD (tocScenB.length - 1) default).children = [] ∧
    collect_leaf_nodes (build_toc_tree tocScenB).1 (build_toc_tree tocScenB).2 ≠ [] ∧
    (collect_leaf_nodes (build_toc_tree tocScenB).1 (build_toc_tree tocScenB).2).getLast? =
      some (tocScenB.length - 1)) :=
  ⟨by decide, C10_last_entry_leaf tocScenB (by decide)⟩

end TocSeg

namespace TocSeg

/-- C7 as stated is false: for the outline `[(1,a,1), (3,b,2), (2,c,3), (3,d,4)]`
the root node has children `[1, 2]` whose levels `3` and `2` differ, so
siblings do not share the same level. -/
theorem C7_counterexample :
    ((build_toc_tree tocSkip).1.getD 0 default).children = [1, 2] ∧
    ((build_toc_tree tocSkip).1.getD 1 default).level = 3 ∧
    ((build_toc_tree tocSkip).1.getD 2 default).level = 2 ∧
    ¬ ((3 : Int) = (2 : Int)) := by
  decide

/-- C7 (amended): in the forest built by `build_toc_tree`, every child of a
node has level strictly greater than the level of the node.  Siblings (and
likewise roots) need not share the same level: any entry with a strictly
greater level than the stack parent becomes its child, see the
counterexample. -/
theorem C7_child_levels (toc : List OutlineEntry) (i c : Nat) (h : i < toc.length)
    (hc : c ∈ ((build_toc_tree toc).1.getD i default).children) :
    c < toc.length ∧
    ((build_toc_tree toc).1.getD i default).level <
      ((build_toc_tree toc).1.getD c default).level := by
  rw [node_children h] at hc
  obtain ⟨hcn, hcp⟩ := mem_childrenF.mp hc
  refine ⟨hcn, ?_⟩
  rw [node_level h, node_level hcn]
  exact specParent_lvl hcp

/-- Witness for C7 (amended) on the same outline: child `1` of node `0`. -/
theorem C7_child_levels_witness :
    (0 < tocSkip.length) ∧
    (1 ∈ ((build_toc_tree tocSkip).1.getD 0 default).children) ∧
    (1 < tocSkip.length ∧
      ((build_toc_tree tocSkip).1.getD 0 default).level <
        ((build_toc_tree tocSkip).1.getD 1 default).level) :=
  ⟨by decide, by decide, C7_child_levels tocSkip 0 1 (by decide) (by decide)⟩

theorem intRange_empty {a b : Int} (h : b ≤ a) : intRange a b = [] := by
  unfold intRange
  rw [Int.toNat_eq_zero.mpr (by omega)]
  rfl

/-- C8 as stated is false because of Python truthiness: a node with
`end_page = 0 < start_page` is treated as having an *open* end page
(`0` is falsy like `None`), so the whole tail of the document is extracted
instead of the empty clamp.  Such a node is produced by `build_toc_tree` for
the outline `[(1,a,5), (1,b,0)]`. -/
theorem C8_counterexample :
    ((build_toc_tree [⟨1, "a", 5⟩, ⟨1, "b", 0⟩]).1.getD 0 default).endPage = some 0 ∧
    ((build_toc_tree [⟨1, "a", 5⟩, ⟨1, "b", 0⟩]).1.getD 0 default).page = 5 ∧
    ((0 : Int) < 5) ∧
    extract_text_for_node (fun _ => "x")
      ((build_toc_tree [⟨1, "a", 5⟩, ⟨1, "b", 0⟩]).1.getD 0 default) 6 = "xx" := by
  decide

/-- C8 (amended): both extractors are total (they are plain functions in this
embedding, mirroring that the Python loops cannot raise), and a malformed
range yields the empty string: `extract_text_for_node` returns `""` whenever
`end_page` is a *truthy* value (`≠ 0`) smaller than `start_page`, and
`extract_text_for_page_range` returns `""` whenever `end_page < start_page`.
The `end_page = 0` case is excluded: Python treats it as `None` (open end),
see the counterexample. -/
theorem C8_empty_clamp (doc : Int → String) (docLength : Nat) :
    (∀ (node : TOCNode) (e : Int), node.endPage = some e → e < node.page → e ≠ 0 →
      extract_text_for_node doc node docLength = "") ∧
    (∀ s e : Int, e < s → extract_text_for_page_range doc s e docLength = "") := by
  constructor
  · intro node e he hlt h0
    simp only [extract_text_for_node, he, if_neg h0]
    rw [intRange_empty (by omega)]
    rfl
  · intro s e hlt
    simp only [extract_text_for_page_range]
    rw [intRange_empty (by omega)]
    rfl

/-- Witness for C8 (amended): a node with `end_page = 2 < start_page = 5` and
a range call with `end_page = 3 < start_page = 7` both produce `""`. -/
theorem C8_empty_clamp_witness :
    extract_text_for_node (fun _ => "x")
      { level := 1, title := "t", page := 5, idx := 1, endPage := some 2 } 10 = "" ∧
    extract_text_for_page_range (fun _ => "x") 7 3 10 = "" :=
  ⟨(C8_empty_clamp (fun _ => "x") 10).1 _ 2 rfl (by decide) (by decide),
   (C8_empty_clamp (fun _ => "x") 10).2 7 3 (by decide)⟩

/-- The combined text of leaf `i`: ancestor intro (if non-empty) joined to the
own text of the leaf with the visible `---` separator, as assembled inside
`extract_pdf_content`. -/
def combinedText (doc : Int → String) (toc : List OutlineEntry) (docLength : Nat)
    (i : Nat) : String :=
  let built := build_toc_tree toc
  let ancestorIntro := get_ancestor_intro_texts doc built.1 i docLength
  let leafText := extract_text_for_node doc (built.1.getD i default) docLength
  if ancestorIntro = "" then leafText else ancestorIntro ++ "\n\n---\n\n" ++ leafText

end TocSeg

namespace TocSeg

/-- C9 (amended): `MIN_WORD_COUNT` defaults to 200, and a pair `(i, t)` is in
the output of the materializer exactly when `i` is a collected leaf whose
combined text (ancestor intro plus own text) splits on whitespace into at
least `minWordCount` words, `t` being those words re-joined with single
spaces.  A segment under the minimum is silently excluded — the returned list
is the entire output of the materializer and carries no count or record of
the exclusion — and no error is raised (the embedding is a total function). -/
theorem C9_word_count_filter (doc : Int → String) (toc : List OutlineEntry)
    (docLength minWordCount : Nat) :
    MIN_WORD_COUNT = 200 ∧
    ∀ i t, ((i, t) ∈ extract_pdf_content doc toc docLength minWordCount ↔
      (i ∈ collect_leaf_nodes (build_toc_tree toc).1 (build_toc_tree toc).2 ∧
        minWordCount ≤ (pySplit (combinedText doc toc docLength i)).length ∧
        t = pyJoin " " (pySplit (combinedText doc toc docLength i)))) := by
  refine ⟨rfl, ?_⟩
  intro i t
  unfold extract_pdf_content
  rw [List.mem_filterMap]
  constructor
  · rintro ⟨a, ha, hfa⟩
    have hfa' : (if minWordCount ≤ (pySplit (combinedText doc toc docLength a)).length
        then some (a, pyJoin " " (pySplit (combinedText doc toc docLength a)))
        else none) = some (i, t) := hfa
    by_cases hlen : minWordCount ≤ (pySplit (combinedText doc toc docLength a)).length
    · rw [if_pos hlen, Option.some.injEq, Prod.mk.injEq] at hfa'
      obtain ⟨rfl, rfl⟩ := hfa'
      exact ⟨ha, hlen, rfl⟩
    · rw [if_neg hlen] at hfa'
      cases hfa'
  · rintro ⟨hmem, hlen, rfl⟩
    refine ⟨i, hmem, ?_⟩
    show (if minWordCount ≤ (pySplit (combinedText doc toc docLength i)).length
        then some (i, pyJoin " " (pySplit (combinedText doc toc docLength i)))
        else none) = some (i, pyJoin " " (pySplit (combinedText doc toc docLength i)))
    rw [if_pos hlen]

/-- C9 as stated is false in its reporting clause: below-threshold segments
are dropped without being counted anywhere.  On Scenario B with a short
document both leaves are collected, both segments are under the default
threshold of 200 words, and the materializer returns the empty list — its
entire output — with no count of the two exclusions. -/
theorem C9_counterexample :
    collect_leaf_nodes (build_toc_tree tocScenB).1 (build_toc_tree tocScenB).2 = [1, 2] ∧
    extract_pdf_content (fun _ => "words here ") tocScenB 10 200 = [] := by
  constructor
  · decide
  · decide

end TocSeg

namespace TocSeg

/-- The labelled intro fragments collected for a node, described as in the
spec: starting from the node, walk up the parent links while the current node
is `children[0]` of its parent, stopping at the first ancestor of which the
current node is not the first child (or at the node `stop`, used by the
round-trip proof to restrict the walk to a subtree; the full walk uses
`stop = toc.length`, which is never reached).  For each parent on this
first-child chain the fragment `(title, start_page, first_child_start_page)`
is recorded exactly when `parent.start_page < first_child.start_page`,
ordered outermost ancestor first. -/
def introFragsUpTo (toc : List OutlineEntry) (stop : Nat) :
    Nat → Nat → List (String × Int × Int)
  | 0, _ => []
  | fuel + 1, cur =>
    if cur = stop then []
    else
      match specParent toc cur with
      | none => []
      | some p =>
        if (childrenF toc p).head? = some cur then
          introFragsUpTo toc stop fuel p ++
            (if pg toc p < pg toc cur then [(ttl toc p, pg toc p, pg toc cur)] else [])
        else []

/-- The full ancestor-intro fragment list of a node. -/
def introFrags (toc : List OutlineEntry) (cur : Nat) : List (String × Int × Int) :=
  introFragsUpTo toc toc.length toc.length cur

/-- The labelled text a fragment contributes: the extracted page-range text
with the `[Context from: title]` header, or nothing when the extracted text
is empty. -/
def fragText (doc : Int → String) (docLength : Nat) (f : String × Int × Int) :
    Option String :=
  let s := extract_text_for_page_range doc f.2.1 f.2.2 docLength
  if s = "" then none else some ("[Context from: " ++ f.1 ++ "]\n" ++ s)

theorem introAux_eq (toc : List OutlineEntry) (doc : Int → String) (docLength : Nat) :
    ∀ fuel cur acc, cur < toc.length → cur < fuel →
      introAux doc (build_toc_tree toc).1 docLength fuel cur acc =
        ((introFragsUpTo toc toc.length fuel cur).filterMap (fragText doc docLength)) ++
          acc := by
  intro fuel
  induction fuel with
  | zero => intro cur acc _ h; omega
  | succ fuel ih =>
    intro cur acc hcur hfuel
    have hstop : ¬ (cur = toc.length) := by omega
    simp only [introAux, introFragsUpTo, if_neg hstop]
    rw [node_parent hcur]
    cases hsp : specParent toc cur with
    | none => simp
    | some p =>
      have hpn : p < toc.length := lt_trans (specParent_lt hsp) hcur
      dsimp only
      rw [node_children hpn]
      cases hh : (childrenF toc p).head? with
      | none => simp
      | some fc =>
        dsimp only
        by_cases hfc : fc = cur
        · subst hfc
          rw [if_pos rfl, if_pos rfl]
          rw [node_page hpn, node_page hcur, node_title hpn]
          have hpc : p < fc := specParent_lt hsp
          rw [ih p _ hpn (by omega)]
          rw [List.filterMap_append, List.append_assoc]
          congr 1
          by_cases hpg : pg toc p < pg toc fc
          · rw [if_pos hpg, if_pos hpg]
            unfold fragText
            by_cases hs : extract_text_for_page_range doc (pg toc p) (pg toc fc) docLength = ""
            · rw [if_pos hs]
              simp [hs]
            · rw [if_neg hs]
              simp [hs]
          · rw [if_neg hpg, if_neg hpg]
            simp
        · rw [if_neg hfc, if_neg (show ¬ ((some fc : Option Nat) = some cur) by
            simpa using hfc)]
          simp
    
theorem get_ancestor_intro_texts_eq (toc : List OutlineEntry) (doc : Int → String)
    (docLength : Nat) (i : Nat) (h : i < toc.length) :
    get_ancestor_intro_texts doc (build_toc_tree toc).1 i docLength =
      pyJoin "\n\n" ((introFrags toc i).filterMap (fragText doc docLength)) := by
  unfold get_ancestor_intro_texts introFrags
  rw [arena_length, introAux_eq toc doc docLength toc.length i [] h h,
    List.append_nil]

/-- C3 (amended): the intro text of a node is assembled from exactly the
fragments of its first-child ancestor chain (`introFrags`: walk upward,
stopping at the first ancestor of which the current node is not
`children[0]`; a fragment covers `[parent.start_page, first_child.start_page)`
and is produced only when `parent.start_page < first_child.start_page`;
fragments are ordered outermost ancestor first and labelled with the parent
title) — except that, unlike the claim, a fragment whose *extracted text* is
empty is dropped entirely (`fragText` yields nothing for it, label included),
see the counterexample.  At the range level the claim holds, and Scenario B
behaves as claimed: with outline `[(1,Ch1,1), (2,1.1,3), (2,1.2,6)]` leaf
`1.1` is attributed exactly the range `[1,3)` tagged `Ch1` and leaf `1.2`
is attributed nothing. -/
theorem C3_ancestor_intro (doc : Int → String) (toc : List OutlineEntry)
    (docLength : Nat) (i : Nat) (h : i < toc.length) :
    (get_ancestor_intro_texts doc (build_toc_tree toc).1 i docLength =
      pyJoin "\n\n" ((introFrags toc i).filterMap (fragText doc docLength))) ∧
    introFrags tocScenB 1 = [("Ch1", 1, 3)] ∧
    introFrags tocScenB 2 = [] :=
  ⟨get_ancestor_intro_texts_eq toc doc docLength i h, by decide, by decide⟩

/-- Witness for C3 (amended) on Scenario B, leaf `1.1`. -/
theorem C3_ancestor_intro_witness :
    (1 < tocScenB.length) ∧
    ((get_ancestor_intro_texts (fun _ => "x") (build_toc_tree tocScenB).1 1 10 =
      pyJoin "\n\n" ((introFrags tocScenB 1).filterMap (fragText (fun _ => "x") 10))) ∧
    introFrags tocScenB 1 = [("Ch1", 1, 3)] ∧
    introFrags tocScenB 2 = []) :=
  ⟨by decide, C3_ancestor_intro (fun _ => "x") tocScenB 10 1 (by decide)⟩

/-- C3 as stated is false on documents with blank pages: on Scenario B with
an all-empty document, leaf `1.1` satisfies the inclusion condition
(`1.1` is the first child of `Ch1` and `Ch1.start_page = 1 < 3`), so by the
claim the intro range `[1,3)` is included as a fragment labelled `Ch1` and
the result would contain the `[Context from: Ch1]` header — but the code
drops the fragment because its extracted text is empty, and returns `""`. -/
theorem C3_counterexample :
    specParent tocScenB 1 = some 0 ∧
    (childrenF tocScenB 0).head? = some 1 ∧
    pg tocScenB 0 < pg tocScenB 1 ∧
    get_ancestor_intro_texts (fun _ => "") (build_toc_tree tocScenB).1 1 10 = "" := by
  decide

/-- Witness for C9 on Scenario B with threshold 2: leaf `1.1` is kept with
its joined word list. -/
theorem C9_word_count_filter_witness :
    (1, pyJoin " " (pySplit (combinedText (fun _ => "x ") tocScenB 10 1))) ∈
      extract_pdf_content (fun _ => "x ") tocScenB 10 2 :=
  ((C9_word_count_filter (fun _ => "x ") tocScenB 10 2).2 1
    (pyJoin " " (pySplit (combinedText (fun _ => "x ") tocScenB 10 1)))).mpr
    ⟨by decide, by decide, rfl⟩

end TocSeg

namespace TocSeg

/-- The parents on the first-child chain of `cur`: walk up the parent links
while the current node is `children[0]` of its parent. -/
def fcChain (toc : List OutlineEntry) : Nat → Nat → List Nat
  | 0, _ => []
  | fuel + 1, cur =>
    match specParent toc cur with
    | some p => if (childrenF toc p).head? = some cur then p :: fcChain toc fuel p else []
    | none => []

theorem head_eq_of_child {toc : List OutlineEntry} {p cur : Nat}
    (hsp : specParent toc cur = some p) (hcn : cur < toc.length)
    (hh : (childrenF toc p).head? = some cur) : cur = p + 1 := by
  have hmem : cur ∈ childrenF toc p := mem_childrenF.mpr ⟨hcn, hsp⟩
  have hne : childrenF toc p ≠ [] := by
    intro hnil
    rw [hnil] at hmem
    cases hmem
  have := childrenF_head hne
  rw [hh] at this
  simpa using this

theorem fcChain_path (toc : List OutlineEntry) :
    ∀ fuel cur p, cur < toc.length → p ∈ fcChain toc fuel cur →
      p < cur ∧ ∀ q, p ≤ q → q < cur → childrenF toc q ≠ [] := by
  intro fuel
  induction fuel with
  | zero => intro cur p _ hp; cases hp
  | succ fuel ih =>
    intro cur p hcn hp
    unfold fcChain at hp
    cases hsp : specParent toc cur with
    | none => rw [hsp] at hp; cases hp
    | some pp =>
      rw [hsp] at hp
      dsimp only at hp
      by_cases hh : (childrenF toc pp).head? = some cur
      · rw [if_pos hh] at hp
        have hcur1 : cur = pp + 1 := head_eq_of_child hsp hcn hh
        have hppne : childrenF toc pp ≠ [] := by
          intro hnil
          rw [hnil] at hh
          cases hh
        rcases List.mem_cons.mp hp with rfl | hp2
        · exact ⟨specParent_lt hsp, fun q hq1 hq2 => by
            rw [show q = p by omega]
            exact hppne⟩
        · have hppn : pp < toc.length := lt_trans (specParent_lt hsp) hcn
          obtain ⟨hlt, hall⟩ := ih pp p hppn hp2
          refine ⟨by omega, ?_⟩
          intro q hq1 hq2
          rcases Nat.lt_or_ge q pp with hq | hq
          · exact hall q hq1 hq
          · rw [show q = pp by omega]
            exact hppne
      · rw [if_neg hh] at hp
        cases hp

theorem introFrags_shape (toc : List OutlineEntry) (stop : Nat) :
    ∀ fuel cur r, cur < toc.length → r ∈ introFragsUpTo toc stop fuel cur →
      ∃ p, p ∈ fcChain toc fuel cur ∧ p + 1 < toc.length ∧
        r = (ttl toc p, pg toc p, pg toc (p + 1)) ∧
        pg toc p < pg toc (p + 1) ∧ p + 1 ≤ cur := by
  intro fuel
  induction fuel with
  | zero => intro cur r _ hr; cases hr
  | succ fuel ih =>
    intro cur r hcn hr
    unfold introFragsUpTo at hr
    by_cases hstop : cur = stop
    · rw [if_pos hstop] at hr
      cases hr
    · rw [if_neg hstop] at hr
      cases hsp : specParent toc cur with
      | none => rw [hsp] at hr; cases hr
      | some p =>
        rw [hsp] at hr
        dsimp only at hr
        by_cases hh : (childrenF toc p).head? = some cur
        · rw [if_pos hh] at hr
          have hcur1 : cur = p + 1 := head_eq_of_child hsp hcn hh
          have hpn : p < toc.length := lt_trans (specParent_lt hsp) hcn
          rcases List.mem_append.mp hr with hr1 | hr2
          · obtain ⟨q, hq1, hq2, hq3, hq4, hq5⟩ := ih p r hpn hr1
            refine ⟨q, ?_, hq2, hq3, hq4, by omega⟩
            unfold fcChain
            rw [hsp]
            dsimp only
            rw [if_pos hh]
            exact List.mem_cons_of_mem p hq1
          · by_cases hpg : pg toc p < pg toc cur
            · rw [if_pos hpg] at hr2
              rcases List.mem_singleton.mp hr2 with rfl
              refine ⟨p, ?_, by omega, by rw [← hcur1], by rw [← hcur1]; exact hpg, by omega⟩
              unfold fcChain
              rw [hsp]
              dsimp only
              rw [if_pos hh]
              exact List.mem_cons_self p _
            · rw [if_neg hpg] at hr2
              cases hr2
        · rw [if_neg hh] at hr
          cases hr

/-- The page ranges (1-indexed, half-open) attributed as ancestor intro text
to a node. -/
def introRanges (toc : List OutlineEntry) (i : Nat) : List (Int × Int) :=
  (introFrags toc i).map (fun f => f.2)

/-- Outline whose tree is `a → [b → [c], e → [f]]` with non-monotonic pages:
the intro ranges of leaves `c` and `f` overlap. -/
def tocOverlap : List OutlineEntry :=
  [⟨1, "a", 1⟩, ⟨2, "b", 5⟩, ⟨3, "c", 9⟩, ⟨2, "e", 2⟩, ⟨3, "f", 8⟩]

/-- Monotone variant of the same tree shape. -/
def tocMono : List OutlineEntry :=
  [⟨1, "r", 1⟩, ⟨2, "a", 2⟩, ⟨3, "c", 4⟩, ⟨2, "e", 6⟩, ⟨3, "f", 8⟩]

/-- C5 as stated is false for arbitrary forests: in `tocOverlap` the two
distinct leaves `2` and `4` receive the intro ranges `[1,5)` and `[2,8)`,
which both contain page `2`. -/
theorem C5_counterexample :
    ((build_toc_tree tocOverlap).1.getD 2 default).children = [] ∧
    ((build_toc_tree tocOverlap).1.getD 4 default).children = [] ∧
    (2 : Nat) ≠ 4 ∧
    ((1 : Int), (5 : Int)) ∈ introRanges tocOverlap 2 ∧
    ((2 : Int), (8 : Int)) ∈ introRanges tocOverlap 4 ∧
    ((1 : Int) ≤ 2 ∧ (2 : Int) < 5 ∧ (2 : Int) ≤ 2 ∧ (2 : Int) < 8) := by
  decide

/-- C5 (amended): when the outline pages are non-decreasing in sequence
order, the ancestor-intro page ranges attributed to two distinct leaves are
disjoint — no page is attributed as intro text to more than one leaf.  For
arbitrary (non-monotonic) outlines this fails, see the counterexample. -/
theorem C5_intro_disjoint (toc : List OutlineEntry)
    (hmono : ∀ b, b < toc.length → ∀ a, a ≤ b → pg toc a ≤ pg toc b)
    (i1 i2 : Nat) (h1 : i1 < toc.length) (h2 : i2 < toc.length) (hne : i1 ≠ i2)
    (hl1 : ((build_toc_tree toc).1.getD i1 default).children = [])
    (hl2 : ((build_toc_tree toc).1.getD i2 default).children = [])
    (r1 r2 : Int × Int) (hr1 : r1 ∈ introRanges toc i1) (hr2 : r2 ∈ introRanges toc i2) :
    r1.2 ≤ r2.1 ∨ r2.2 ≤ r1.1 := by
  rw [node_children h1] at hl1
  rw [node_children h2] at hl2
  obtain ⟨f1, hf1, hrf1⟩ := List.mem_map.mp hr1
  obtain ⟨f2, hf2, hrf2⟩ := List.mem_map.mp hr2
  obtain ⟨p1, hp1c, hp1n, hf1eq, hp1pg, hp1le⟩ := introFrags_shape toc toc.length
    toc.length i1 f1 h1 hf1
  obtain ⟨p2, hp2c, hp2n, hf2eq, hp2pg, hp2le⟩ := introFrags_shape toc toc.length
    toc.length i2 f2 h2 hf2
  have hr1eq : r1 = (pg toc p1, pg toc (p1 + 1)) := by
    rw [← hrf1, hf1eq]
  have hr2eq : r2 = (pg toc p2, pg toc (p2 + 1)) := by
    rw [← hrf2, hf2eq]
  have hp12 : p1 ≠ p2 := by
    rintro rfl
    obtain ⟨hlt1, hall1⟩ := fcChain_path toc toc.length i1 p1 h1 hp1c
    obtain ⟨hlt2, hall2⟩ := fcChain_path toc toc.length i2 p1 h2 hp2c
    rcases Nat.lt_trichotomy i1 i2 with hlt | heq | hgt
    · exact hall2 i1 (by omega) hlt hl1
    · exact hne heq
    · exact hall1 i2 (by omega) hgt hl2
  rcases Nat.lt_or_ge p1 p2 with hlt | hge
  · left
    rw [hr1eq, hr2eq]
    exact hmono p2 (by omega) (p1 + 1) (by omega)
  · right
    rw [hr1eq, hr2eq]
    have hlt : p2 < p1 := by omega
    exact hmono p1 (by omega) (p2 + 1) (by omega)

/-- Witness for C5 (amended) on `tocMono`: the leaves `2` and `4` have intro
ranges `[1,2)`, `[2,4)` and `[6,8)`; the theorem applies to `[2,4)` and
`[6,8)`. -/
theorem C5_intro_disjoint_witness :
    (((2 : Int), (4 : Int)).2 ≤ ((6 : Int), (8 : Int)).1 ∨
      ((6 : Int), (8 : Int)).2 ≤ ((2 : Int), (4 : Int)).1) :=
  C5_intro_disjoint tocMono (by decide) 2 4 (by decide) (by decide) (by decide)
    (by decide) (by decide) (2, 4) (6, 8) (by decide) (by decide)

end TocSeg

namespace TocSeg

theorem introFragsUpTo_congr (toc : List OutlineEntry) (stop : Nat) :
    ∀ cur f g, cur < f → cur < g →
      introFragsUpTo toc stop f cur = introFragsUpTo toc stop g cur := by
  intro cur
  induction cur using Nat.strong_induction_on with
  | _ cur ih =>
    intro f g hf hg
    match f, g with
    | f + 1, g + 1 =>
      simp only [introFragsUpTo]
      by_cases hstop : cur = stop
      · rw [if_pos hstop, if_pos hstop]
      · rw [if_neg hstop, if_neg hstop]
        cases hsp : specParent toc cur with
        | none => rfl
        | some p =>
          dsimp only
          by_cases hh : (childrenF toc p).head? = some cur
          · rw [if_pos hh, if_pos hh]
            have hp : p < cur := specParent_lt hsp
            rw [ih p hp f g (by omega) (by omega)]
          · rw [if_neg hh, if_neg hh]

theorem introFragsUpTo_succ (toc : List OutlineEntry) (stop fuel cur : Nat) :
    introFragsUpTo toc stop (fuel + 1) cur =
      if cur = stop then []
      else
        match specParent toc cur with
        | none => []
        | some p =>
          if (childrenF toc p).head? = some cur then
            introFragsUpTo toc stop fuel p ++
              (if pg toc p < pg toc cur then [(ttl toc p, pg toc p, pg toc cur)] else [])
          else [] := rfl

/-- Does the walk from `cur` upward along first-child links reach `mid`? -/
def onSpine (toc : List OutlineEntry) : Nat → Nat → Nat → Bool
  | 0, mid, cur => cur == mid
  | fuel + 1, mid, cur =>
    if cur = mid then true
    else
      match specParent toc cur with
      | some p => if (childrenF toc p).head? = some cur then onSpine toc fuel mid p else false
      | none => false

theorem onSpine_succ (toc : List OutlineEntry) (fuel mid cur : Nat) :
    onSpine toc (fuel + 1) mid cur =
      if cur = mid then true
      else
        match specParent toc cur with
        | some p => if (childrenF toc p).head? = some cur then onSpine toc fuel mid p else false
        | none => false := rfl

theorem chain_le {toc : List OutlineEntry} :
    ∀ cur x, x ∈ chain toc cur → x ≤ cur := by
  intro cur
  induction cur using Nat.strong_induction_on with
  | _ cur ih =>
    intro x hx
    rw [chain_cons] at hx
    rcases List.mem_cons.mp hx with rfl | hx2
    · exact le_rfl
    · cases hsp : specParent toc cur with
      | none => rw [hsp] at hx2; cases hx2
      | some p =>
        rw [hsp] at hx2
        have hp : p < cur := specParent_lt hsp
        exact le_trans (ih p hp x hx2) (le_of_lt hp)

theorem chain_mem_of_block {toc : List OutlineEntry} {c : Nat} :
    ∀ L, c ≤ L → L < close toc c → L < toc.length → c ∈ chain toc L := by
  intro L
  induction L using Nat.strong_induction_on with
  | _ L ih =>
    intro hcL hLc hLn
    rcases Nat.eq_or_lt_of_le hcL with rfl | hlt
    · rw [chain_cons]
      exact List.mem_cons_self _ _
    · have hcn : c < toc.length := by omega
      have hlv : lvl toc c < lvl toc L := close_between hcn L hlt hLc
      cases hsp : specParent toc L with
      | none =>
        exact absurd (specParent_none hsp c hlt) (not_le.mpr hlv)
      | some q =>
        have hqc : c ≤ q := by
          by_contra hqlt
          exact absurd (specParent_between hsp c (by omega) hlt) (not_le.mpr hlv)
        have hqL : q < L := specParent_lt hsp
        have hqclose : q < close toc c := by omega
        have := ih q hqL hqc hqclose (by omega)
        rw [chain_cons, hsp]
        exact List.mem_cons_of_mem _ this

theorem introFrags_split (toc : List OutlineEntry) (stop : Nat) :
    ∀ fuel cur mid, cur < toc.length → cur < fuel → mid ∈ chain toc cur → stop < mid →
      introFragsUpTo toc stop fuel cur =
        (if onSpine toc fuel mid cur then introFragsUpTo toc stop fuel mid else []) ++
          introFragsUpTo toc mid fuel cur := by
  intro fuel
  induction fuel with
  | zero => intro cur mid _ h; omega
  | succ fuel ih =>
    intro cur mid hcn hfuel hmem hstop
    by_cases hmc : cur = mid
    · subst hmc
      have hone : onSpine toc (fuel + 1) cur cur = true := by
        unfold onSpine
        rw [if_pos rfl]
      have hz : introFragsUpTo toc cur (fuel + 1) cur = [] := by
        unfold introFragsUpTo
        rw [if_pos rfl]
      rw [hone, hz, List.append_nil, if_pos rfl]
    · have hmidlt : mid < cur := lt_of_le_of_ne (chain_le cur mid hmem) fun h => hmc h.symm
      have hcurstop : ¬ cur = stop := by omega
      cases hsp : specParent toc cur with
      | none =>
        exfalso
        rw [chain_cons, hsp] at hmem
        rcases List.mem_cons.mp hmem with heq | hmem2
        · exact hmc heq.symm
        · cases hmem2
      | some p =>
        have hmemp : mid ∈ chain toc p := by
          rw [chain_cons, hsp] at hmem
          rcases List.mem_cons.mp hmem with heq | hmem2
          · exact absurd heq.symm hmc
          · exact hmem2
        have hpn : p < toc.length := lt_trans (specParent_lt hsp) hcn
        have hpf : p < fuel := by
          have := specParent_lt hsp
          omega
        have hmidf : mid < fuel := by
          have := chain_le p mid hmemp
          have := specParent_lt hsp
          omega
        by_cases hh : (childrenF toc p).head? = some cur
        · have hL : introFragsUpTo toc stop (fuel + 1) cur =
              introFragsUpTo toc stop fuel p ++
                (if pg toc p < pg toc cur then [(ttl toc p, pg toc p, pg toc cur)] else []) := by
            simp only [introFragsUpTo_succ, if_neg hcurstop, hsp, if_pos hh]
          have hR : introFragsUpTo toc mid (fuel + 1) cur =
              introFragsUpTo toc mid fuel p ++
                (if pg toc p < pg toc cur then [(ttl toc p, pg toc p, pg toc cur)] else []) := by
            simp only [introFragsUpTo_succ, if_neg hmc, hsp, if_pos hh]
          have hS : onSpine toc (fuel + 1) mid cur = onSpine toc fuel mid p := by
            simp only [onSpine_succ, if_neg hmc, hsp, if_pos hh]
          rw [hL, hR, hS, ih p mid hpn hpf hmemp hstop,
            introFragsUpTo_congr toc stop mid fuel (fuel + 1) hmidf (by omega)]
          rw [List.append_assoc]
        · have hL : introFragsUpTo toc stop (fuel + 1) cur = [] := by
            simp only [introFragsUpTo_succ, if_neg hcurstop, hsp, if_neg hh]
          have hR : introFragsUpTo toc mid (fuel + 1) cur = [] := by
            simp only [introFragsUpTo_succ, if_neg hmc, hsp, if_neg hh]
          have hS : onSpine toc (fuel + 1) mid cur = false := by
            simp only [onSpine_succ, if_neg hmc, hsp, if_neg hh]
          rw [hL, hR, hS]
          simp

end TocSeg

namespace TocSeg

theorem close_nest {toc : List OutlineEntry} {x y : Nat} (hx : x < toc.length)
    (hxy : x ≤ y) (hyc : y < close toc x) : close toc y ≤ close toc x := by
  have hyn : y < toc.length := lt_of_lt_of_le hyc (close_le hx)
  rcases Nat.eq_or_lt_of_le hxy with rfl | hlt
  · exact le_rfl
  · by_cases hci : close toc x < toc.length
    · exact close_min hyn hyc
        (le_trans (close_lvl hx hci) (le_of_lt (close_between hx y hlt hyc)))
    · have := close_le hyn
      omega

/-- The last index of a subtree block is always a leaf. -/
theorem subtree_last_leaf {toc : List OutlineEntry} {i : Nat} (h : i < toc.length) :
    childrenF toc (close toc i - 1) = [] := by
  have hgt := close_gt h
  have hle := close_le h
  have hiL : i ≤ close toc i - 1 := by omega
  have hLc : close toc i - 1 < close toc i := by omega
  rw [List.eq_nil_iff_forall_not_mem]
  intro c hc
  obtain ⟨hcn, hcp⟩ := mem_childrenF.mp hc
  have hb := child_in_block hcp hcn
  have hcc : close toc (close toc i - 1) ≤ close toc i := close_nest h hiL hLc
  omega

theorem filter_range_head (p : Nat → Bool) :
    ∀ cnt a, (List.range' a cnt).filter p ≠ [] →
      ∃ h0 rest, (List.range' a cnt).filter p = h0 :: rest ∧ a ≤ h0 ∧ h0 < a + cnt ∧
        p h0 = true ∧ ∀ q, a ≤ q → q < h0 → p q = false := by
  intro cnt
  induction cnt with
  | zero => intro a hne; exact absurd rfl hne
  | succ cnt ih =>
    intro a hne
    rw [List.range'_succ] at hne ⊢
    rw [List.filter_cons] at hne ⊢
    by_cases hpa : p a = true
    · rw [if_pos hpa]
      refine ⟨a, (List.range' (a + 1) cnt).filter p, rfl, le_rfl, by omega, hpa, ?_⟩
      intro q hq1 hq2
      omega
    · have hpa2 : p a = false := by
        revert hpa
        cases p a <;> simp
      rw [if_neg hpa] at hne ⊢
      obtain ⟨h0, rest, he, h1, h2, h3, h4⟩ := ih (a + 1) hne
      refine ⟨h0, rest, he, by omega, by omega, h3, ?_⟩
      intro q hq1 hq2
      rcases Nat.eq_or_lt_of_le hq1 with rfl | hlt
      · exact hpa2
      · exact h4 q hlt hq2

/-- The leaves of the subtree block of `i`, in increasing index order. -/
def leavesIn (toc : List OutlineEntry) (i : Nat) : List Nat :=
  (List.range' i (close toc i - i)).filter (fun j => decide (childrenF toc j = []))

theorem mem_leavesIn {toc : List OutlineEntry} {i q : Nat} (h : i < toc.length) :
    q ∈ leavesIn toc i ↔ i ≤ q ∧ q < close toc i ∧ childrenF toc q = [] := by
  have := close_gt h
  simp only [leavesIn, List.mem_filter, List.mem_range'_1, decide_eq_true_eq]
  constructor
  · rintro ⟨⟨h1, h2⟩, h3⟩
    exact ⟨h1, by omega, h3⟩
  · rintro ⟨h1, h2, h3⟩
    exact ⟨⟨h1, by omega⟩, h3⟩

theorem leavesIn_spec {toc : List OutlineEntry} {i : Nat} (h : i < toc.length) :
    ∃ h0 rest, leavesIn toc i = h0 :: rest ∧ i ≤ h0 ∧ h0 < close toc i ∧
      childrenF toc h0 = [] ∧ ∀ q, i ≤ q → q < h0 → childrenF toc q ≠ [] := by
  have hgt := close_gt h
  have hne : leavesIn toc i ≠ [] := by
    have hmem : close toc i - 1 ∈ leavesIn toc i :=
      (mem_leavesIn h).mpr ⟨by omega, by omega, subtree_last_leaf h⟩
    exact List.ne_nil_of_mem hmem
  obtain ⟨h0, rest, he, h1, h2, h3, h4⟩ :=
    filter_range_head (fun j => decide (childrenF toc j = [])) (close toc i - i) i hne
  refine ⟨h0, rest, he, h1, by omega, by simpa using h3, ?_⟩
  intro q hq1 hq2
  have := h4 q hq1 hq2
  simpa using this

theorem leavesIn_pairwise (toc : List OutlineEntry) (i : Nat) :
    (leavesIn toc i).Pairwise (· < ·) := by
  refine List.Pairwise.filter _ ?_
  exact List.pairwise_lt_range' _ _

theorem mem_of_head {α : Type} {l : List α} {a : α} (h : l.head? = some a) : a ∈ l := by
  cases l with
  | nil => cases h
  | cons x xs =>
    have hx : x = a := by simpa using h
    rw [← hx]
    exact List.mem_cons_self _ _

theorem onSpine_of_path (toc : List OutlineEntry) :
    ∀ fuel mid d, d < toc.length → mid ≤ d → d - mid ≤ fuel →
      (∀ q, mid ≤ q → q < d → childrenF toc q ≠ []) →
      onSpine toc fuel mid d = true := by
  intro fuel
  induction fuel with
  | zero =>
    intro mid d _ h1 h2 _
    have hd : d = mid := by omega
    subst hd
    simp [onSpine]
  | succ fuel ih =>
    intro mid d hdn h1 h2 hall
    rw [onSpine_succ]
    by_cases hdm : d = mid
    · rw [if_pos hdm]
    · rw [if_neg hdm]
      have hdpos : mid < d := by omega
      have hnl : childrenF toc (d - 1) ≠ [] := hall (d - 1) (by omega) (by omega)
      have hh : (childrenF toc (d - 1)).head? = some d := by
        have hch := childrenF_head hnl
        rw [show d - 1 + 1 = d by omega] at hch
        exact hch
      have hmemc : d ∈ childrenF toc (d - 1) := mem_of_head hh
      have hsp : specParent toc d = some (d - 1) := (mem_childrenF.mp hmemc).2
      rw [hsp]
      dsimp only
      rw [if_pos hh]
      exact ih mid (d - 1) (by omega) (by omega) (by omega)
        (fun q hq1 hq2 => hall q hq1 (by omega))

theorem onSpine_path (toc : List OutlineEntry) :
    ∀ fuel mid cur, onSpine toc fuel mid cur = true →
      mid ≤ cur ∧ ∀ q, mid ≤ q → q < cur → childrenF toc q ≠ [] := by
  intro fuel
  induction fuel with
  | zero =>
    intro mid cur hon
    have hc : cur = mid := by simpa [onSpine] using hon
    subst hc
    exact ⟨le_rfl, fun q hq1 hq2 => absurd hq2 (by omega)⟩
  | succ fuel ih =>
    intro mid cur hon
    rw [onSpine_succ] at hon
    by_cases hcm : cur = mid
    · subst hcm
      exact ⟨le_rfl, fun q hq1 hq2 => absurd hq2 (by omega)⟩
    · rw [if_neg hcm] at hon
      cases hsp : specParent toc cur with
      | none =>
        rw [hsp] at hon
        cases hon
      | some p =>
        rw [hsp] at hon
        dsimp only at hon
        by_cases hh : (childrenF toc p).head? = some cur
        · rw [if_pos hh] at hon
          obtain ⟨h1, h2⟩ := ih mid p hon
          have hne : childrenF toc p ≠ [] := by
            intro hnil
            rw [hnil] at hh
            cases hh
          have hch := childrenF_head hne
          rw [hch] at hh
          have hcur : cur = p + 1 := by
            have hinj : p + 1 = cur := by simpa using hh
            omega
          refine ⟨by omega, ?_⟩
          intro q hq1 hq2
          rcases Nat.lt_or_ge q p with hqp | hqp
          · exact h2 q hq1 hqp
          · have hqe : q = p := by omega
            subst hqe
            exact hne
        · rw [if_neg hh] at hon
          cases hon

theorem intRange_eq_map (a b : Int) :
    intRange a b = (List.range (b - a).toNat).map (fun k : Nat => a + (k : Int)) := by
  unfold intRange
  simp only [bind_pure_comp, List.map_eq_map, List.map_map]
  rfl

theorem intRange_glue {a b c : Int} (hab : a ≤ b) (hbc : b ≤ c) :
    intRange a b ++ intRange b c = intRange a c := by
  rw [intRange_eq_map, intRange_eq_map, intRange_eq_map]
  have hm : (c - a).toNat = (b - a).toNat + (c - b).toNat := by omega
  rw [hm, List.range_add, List.map_append, List.map_map]
  congr 1
  refine List.map_congr_left ?_
  intro k hk
  simp only [Function.comp_apply]
  have hba : (((b - a).toNat : Int)) = b - a := Int.toNat_of_nonneg (by omega)
  push_cast
  omega

/-- The exclusive 0-based end index a subtree block extracts to: one before
the start page of the entry closing the block, or the document length when no
entry closes it. -/
def endEx (toc : List OutlineEntry) (docLength : Nat) (i : Nat) : Int :=
  if close toc i < toc.length then pg toc (close toc i) - 1 else (docLength : Int)

theorem endEx_ge_pg {toc : List OutlineEntry} {docLength : Nat} {i j : Nat}
    (hmono : ∀ b, b < toc.length → ∀ a, a ≤ b → pg toc a ≤ pg toc b)
    (hbound : ∀ k, k < toc.length → pg toc k ≤ (docLength : Int))
    (hin : i < toc.length) (hjn : j < toc.length) (hji : j ≤ close toc i) :
    pg toc j - 1 ≤ endEx toc docLength i := by
  unfold endEx
  by_cases hc : close toc i < toc.length
  · rw [if_pos hc]
    have := hmono (close toc i) hc j hji
    omega
  · rw [if_neg hc]
    have := hbound j hjn
    omega

/-- The 0-based pages covered by a list of intro fragments, in order. -/
def fragPages (frags : List (String × Int × Int)) : List Int :=
  (frags.map (fun f => (f.2.1 - 1, f.2.2 - 1))).flatMap (fun r : Int × Int => intRange r.1 r.2)

theorem fragPages_nil : fragPages [] = [] := rfl

theorem fragPages_append (a b : List (String × Int × Int)) :
    fragPages (a ++ b) = fragPages a ++ fragPages b := by
  unfold fragPages
  rw [List.map_append, List.flatMap_append]

theorem fragPages_single (t : String) (a b : Int) :
    fragPages [(t, a, b)] = intRange (a - 1) (b - 1) := by
  unfold fragPages
  rw [List.map_cons, List.map_nil, List.flatMap_cons, List.flatMap_nil, List.append_nil]

/-- The 0-based pages attributed to leaf `L` in a segment walk stopping at
`stop`: its intro fragment pages followed by its own block pages. -/
def segPages (toc : List OutlineEntry) (docLength : Nat) (stop L : Nat) : List Int :=
  fragPages (introFragsUpTo toc stop toc.length L) ++
    intRange (pg toc L - 1) (endEx toc docLength L)

theorem fragsUpTo_child (toc : List OutlineEntry) {i c : Nat} (fuel : Nat) (hf : 0 < fuel)
    (hsp : specParent toc c = some i) (hcn : c < toc.length) :
    introFragsUpTo toc i fuel c =
      if c = i + 1 then
        (if pg toc i < pg toc c then [(ttl toc i, pg toc i, pg toc c)] else [])
      else [] := by
  obtain ⟨f, rfl⟩ : ∃ f, fuel = f + 1 := ⟨fuel - 1, by omega⟩
  have hci : ¬ c = i := by
    have := specParent_lt hsp
    omega
  simp only [introFragsUpTo_succ, if_neg hci, hsp]
  have hne : childrenF toc i ≠ [] := List.ne_nil_of_mem (mem_childrenF.mpr ⟨hcn, hsp⟩)
  rw [childrenF_head hne]
  by_cases hc1 : c = i + 1
  · rw [if_pos (by rw [hc1]), if_pos hc1]
    have hz : introFragsUpTo toc i f i = [] := by
      cases f with
      | zero => rfl
      | succ f2 => rw [introFragsUpTo_succ, if_pos rfl]
    rw [hz, List.nil_append]
  · have hcond : ¬ (some (i + 1) = some c) := by
      intro hh
      have : i + 1 = c := by simpa using hh
      omega
    rw [if_neg hcond, if_neg hc1]

theorem child_block_pages (toc : List OutlineEntry) (docLength : Nat)
    {i c' : Nat} (hin : i < toc.length) (hc'n : c' < toc.length)
    (hsp : specParent toc c' = some i)
    (IH : (leavesIn toc c').flatMap (segPages toc docLength c') =
      intRange (pg toc c' - 1) (endEx toc docLength c')) :
    (leavesIn toc c').flatMap (segPages toc docLength i) =
      fragPages (introFragsUpTo toc i toc.length c') ++
        intRange (pg toc c' - 1) (endEx toc docLength c') := by
  obtain ⟨h0, rest, he, hh1, hh2, hh3, hh4⟩ := leavesIn_spec hc'n
  have hic' : i < c' := specParent_lt hsp
  have hstep : ∀ L, L ∈ leavesIn toc c' →
      segPages toc docLength i L =
        (if L = h0 then fragPages (introFragsUpTo toc i toc.length c') else []) ++
          segPages toc docLength c' L := by
    intro L hL
    obtain ⟨hL1, hL2, hLleaf⟩ := (mem_leavesIn hc'n).mp hL
    have hLn : L < toc.length := lt_of_lt_of_le hL2 (close_le hc'n)
    have hmem : c' ∈ chain toc L := chain_mem_of_block L hL1 hL2 hLn
    have hsplit := introFrags_split toc i toc.length L c' hLn hLn hmem hic'
    have hiff : (onSpine toc toc.length c' L = true) ↔ L = h0 := by
      constructor
      · intro hon
        obtain ⟨_, hpath⟩ := onSpine_path toc toc.length c' L hon
        have hh0L : h0 ≤ L := by
          by_contra hlt
          exact hh4 L hL1 (by omega) hLleaf
        rcases Nat.eq_or_lt_of_le hh0L with heq | hlt
        · omega
        · exact absurd hh3 (hpath h0 hh1 hlt)
      · intro heq
        subst heq
        have hLn2 : L < toc.length := lt_of_lt_of_le hh2 (close_le hc'n)
        exact onSpine_of_path toc toc.length c' L hLn2 hh1 (by omega) hh4
    simp only [segPages]
    rw [hsplit, fragPages_append, apply_ite fragPages, fragPages_nil]
    by_cases hcase : L = h0
    · rw [if_pos (hiff.mpr hcase), if_pos hcase, List.append_assoc]
    · have hneg : ¬ (onSpine toc toc.length c' L = true) := fun hon => hcase (hiff.mp hon)
      rw [if_neg hneg, if_neg hcase, List.nil_append, List.nil_append]
  have hh0mem : h0 ∈ leavesIn toc c' := by
    rw [he]
    exact List.mem_cons_self _ _
  have hrest : ∀ L, L ∈ rest → segPages toc docLength i L = segPages toc docLength c' L := by
    intro L hLr
    have hLmem : L ∈ leavesIn toc c' := by
      rw [he]
      exact List.mem_cons_of_mem _ hLr
    have hpw := leavesIn_pairwise toc c'
    rw [he] at hpw
    have hlt : h0 < L := (List.pairwise_cons.mp hpw).1 L hLr
    have hneq : L ≠ h0 := by omega
    rw [hstep L hLmem, if_neg hneq, List.nil_append]
  have hR : rest.flatMap (segPages toc docLength i) =
      rest.flatMap (segPages toc docLength c') := List.flatMap_congr hrest
  rw [he, List.flatMap_cons, hstep h0 hh0mem, if_pos rfl, hR, List.append_assoc,
    ← List.flatMap_cons, ← he, IH]

end TocSeg

namespace TocSeg

/-- Core of the round-trip claim: for any subtree root `i` (under monotone,
bounded pages), the pages attributed to the leaves of the subtree of `i` in
leaf order — each leaf taking its intro fragments (walk stopped at `i`)
followed by its own block — are exactly the page block of `i`. -/
theorem seg_cover (toc : List OutlineEntry) (docLength : Nat)
    (hmono : ∀ b, b < toc.length → ∀ a, a ≤ b → pg toc a ≤ pg toc b)
    (hbound : ∀ k, k < toc.length → pg toc k ≤ (docLength : Int)) :
    ∀ N i, i < toc.length → close toc i - i ≤ N →
      (leavesIn toc i).flatMap (segPages toc docLength i) =
        intRange (pg toc i - 1) (endEx toc docLength i) := by
  intro N
  induction N using Nat.strong_induction_on with
  | _ N ihN =>
    intro i hin hN
    by_cases hleaf : childrenF toc i = []
    · have hcl : close toc i = i + 1 := (childrenF_empty_iff hin).mp hleaf
      have hlv2 : leavesIn toc i = [i] := by
        unfold leavesIn
        rw [hcl, (by omega : i + 1 - i = 1), List.range'_one, List.filter_cons,
          if_pos (by simp [hleaf]), List.filter_nil]
      rw [hlv2, List.flatMap_cons, List.flatMap_nil, List.append_nil]
      unfold segPages
      have hz : introFragsUpTo toc i toc.length i = [] := by
        cases hn : toc.length with
        | zero => rfl
        | succ m => rw [introFragsUpTo_succ, if_pos rfl]
      rw [hz, fragPages_nil, List.nil_append]
    · rcases hch2 : childrenF toc i with _ | ⟨c, tail⟩
      · exact absurd hch2 hleaf
      have hhead : (childrenF toc i).head? = some (i + 1) := by
        refine childrenF_head ?_
        rw [hch2]
        exact List.cons_ne_nil _ _
      have hc1 : c = i + 1 := by
        rw [hch2] at hhead
        simpa using hhead
      have hle2 : i + 1 ≤ close toc i := close_gt hin
      have hinner : ∀ l₂ c' l₁, childrenF toc i = l₁ ++ c' :: l₂ →
          ((List.range' c' (close toc i - c')).filter
              (fun j => decide (childrenF toc j = []))).flatMap
            (segPages toc docLength i) =
            fragPages (introFragsUpTo toc i toc.length c') ++
              intRange (pg toc c' - 1) (endEx toc docLength i) := by
        intro l₂
        induction l₂ with
        | nil =>
          intro c' l₁ hdec
          have hc'mem : c' ∈ childrenF toc i := by
            rw [hdec]
            simp
          obtain ⟨hc'n, hc'p⟩ := mem_childrenF.mp hc'mem
          have hlast : close toc c' = close toc i := close_eq_last_child hin hdec
          have hblockA := child_in_block hc'p hc'n
          have hIH : (leavesIn toc c').flatMap (segPages toc docLength c') =
              intRange (pg toc c' - 1) (endEx toc docLength c') := by
            have hgt := close_gt hin
            exact ihN (close toc c' - c') (by omega) c' hc'n le_rfl
          have hcbp := child_block_pages toc docLength hin hc'n hc'p hIH
          rw [(by omega : close toc i - c' = close toc c' - c')]
          rw [show (List.range' c' (close toc c' - c')).filter
              (fun j => decide (childrenF toc j = [])) = leavesIn toc c' from rfl]
          rw [hcbp]
          have hend : endEx toc docLength c' = endEx toc docLength i := by
            unfold endEx
            rw [hlast]
          rw [hend]
        | cons c'' l₂ ihl =>
          intro c' l₁ hdec
          have hc'mem : c' ∈ childrenF toc i := by
            rw [hdec]
            simp
          obtain ⟨hc'n, hc'p⟩ := mem_childrenF.mp hc'mem
          have hc''mem : c'' ∈ childrenF toc i := by
            rw [hdec]
            simp
          obtain ⟨hc''n, hc''p⟩ := mem_childrenF.mp hc''mem
          have hnext : close toc c' = c'' := close_eq_next_child hdec
          have hblockA := child_in_block hc'p hc'n
          have hblockB := child_in_block hc''p hc''n
          have hcc : c' < c'' := by
            rw [← hnext]
            exact close_gt hc'n
          rw [range'_split (le_of_lt hcc) (le_of_lt hblockB.2), List.filter_append,
            List.flatMap_append]
          have hIH : (leavesIn toc c').flatMap (segPages toc docLength c') =
              intRange (pg toc c' - 1) (endEx toc docLength c') := by
            have hgt := close_gt hin
            have hle3 : close toc c' ≤ close toc i :=
              close_nest hin (le_of_lt hblockA.1) hblockA.2
            exact ihN (close toc c' - c') (by omega) c' hc'n le_rfl
          have hfirst := child_block_pages toc docLength hin hc'n hc'p hIH
          have hr1 : (List.range' c' (c'' - c')).filter
              (fun j => decide (childrenF toc j = [])) = leavesIn toc c' := by
            unfold leavesIn
            rw [hnext]
          rw [hr1, hfirst]
          have hdec2 : childrenF toc i = (l₁ ++ [c']) ++ c'' :: l₂ := by
            rw [hdec]
            simp
          rw [ihl c'' (l₁ ++ [c']) hdec2]
          have hfc2 : introFragsUpTo toc i toc.length c'' = [] := by
            rw [fragsUpTo_child toc toc.length (by omega) hc''p hc''n,
              if_neg (by omega : ¬ c'' = i + 1)]
          rw [hfc2, fragPages_nil, List.nil_append]
          have hendc : endEx toc docLength c' = pg toc c'' - 1 := by
            unfold endEx
            rw [hnext, if_pos hc''n]
          rw [hendc, List.append_assoc]
          have hg1 : pg toc c' - 1 ≤ pg toc c'' - 1 := by
            have := hmono c'' hc''n c' (le_of_lt hcc)
            omega
          have hg2 : pg toc c'' - 1 ≤ endEx toc docLength i :=
            endEx_ge_pg hmono hbound hin hc''n (le_of_lt hblockB.2)
          rw [intRange_glue hg1 hg2]
      have hfilter : leavesIn toc i =
          (List.range' c (close toc i - c)).filter
            (fun j => decide (childrenF toc j = [])) := by
        unfold leavesIn
        rw [hc1, range'_split (Nat.le_succ i) hle2, (by omega : i + 1 - i = 1),
          List.range'_one, List.filter_append, List.filter_cons,
          if_neg (by simp only [decide_eq_true_eq]; exact hleaf), List.filter_nil,
          List.nil_append]
      have hmain := hinner tail c [] (by rw [hch2]; rfl)
      rw [hfilter, hmain]
      obtain ⟨hcn2, hcp2⟩ := mem_childrenF.mp
        (show c ∈ childrenF toc i by rw [hch2]; simp)
      have hfc : introFragsUpTo toc i toc.length c =
          if pg toc i < pg toc c then [(ttl toc i, pg toc i, pg toc c)] else [] := by
        rw [fragsUpTo_child toc toc.length (by omega) hcp2 hcn2, if_pos hc1]
      rw [hfc]
      have hpgc : pg toc i ≤ pg toc c := hmono c hcn2 i (by omega)
      have hfp : fragPages
          (if pg toc i < pg toc c then [(ttl toc i, pg toc i, pg toc c)] else []) =
          intRange (pg toc i - 1) (pg toc c - 1) := by
        by_cases hlt : pg toc i < pg toc c
        · rw [if_pos hlt, fragPages_single]
        · rw [if_neg hlt, fragPages_nil,
            intRange_empty (show pg toc c - 1 ≤ pg toc i - 1 by omega)]
      rw [hfp]
      have hg1 : pg toc i - 1 ≤ pg toc c - 1 := by omega
      have hg2 : pg toc c - 1 ≤ endEx toc docLength i :=
        endEx_ge_pg hmono hbound hin hcn2 (le_of_lt (child_in_block hcp2 hcn2).2)
      rw [intRange_glue hg1 hg2]

end TocSeg

namespace TocSeg

theorem rootsF_single {toc : List OutlineEntry} (hne : toc ≠ [])
    (hroot : ∀ k, k < toc.length → 0 < k → lvl toc 0 < lvl toc k) :
    rootsF toc = [0] := by
  have hn : 0 < toc.length := List.length_pos.mpr hne
  unfold rootsF rootsBefore
  have hpred : ∀ c ∈ List.range toc.length,
      (decide (specParent toc c = none)) = (decide (c = 0)) := by
    intro c hc
    rw [List.mem_range] at hc
    by_cases c0 : c = 0
    · subst c0
      simp [specParent_zero]
    · have h1 : specParent toc c ≠ none := by
        intro hnone
        have h2 := specParent_none hnone 0 (by omega)
        exact absurd (hroot c hc (by omega)) (not_lt.mpr h2)
      simp [h1, c0]
  rw [List.filter_congr hpred]
  have hr : List.range toc.length = 0 :: List.range' 1 (toc.length - 1) := by
    rw [List.range_eq_range']
    cases hc : toc.length with
    | zero => omega
    | succ m =>
      rw [List.range'_succ]
      simp
  rw [hr, List.filter_cons, if_pos (by simp)]
  have h2 : (List.range' 1 (toc.length - 1)).filter (fun c => decide (c = 0)) = [] := by
    rw [List.filter_eq_nil_iff]
    intro a ha
    rw [List.mem_range'_1] at ha
    simp only [decide_eq_true_eq]
    omega
  rw [h2]

theorem close_zero {toc : List OutlineEntry} (hne : toc ≠ [])
    (hroot : ∀ k, k < toc.length → 0 < k → lvl toc 0 < lvl toc k) :
    close toc 0 = toc.length :=
  close_eq_last_root (show rootsF toc = [] ++ [0] by rw [rootsF_single hne hroot]; rfl)

theorem fragsUpTo_stop_irrel (toc : List OutlineEntry) :
    ∀ fuel cur, cur < toc.length →
      introFragsUpTo toc toc.length fuel cur = introFragsUpTo toc 0 fuel cur := by
  intro fuel
  induction fuel with
  | zero => intro cur _; rfl
  | succ fuel ih =>
    intro cur hcn
    rw [introFragsUpTo_succ, introFragsUpTo_succ]
    have hcs : ¬ cur = toc.length := by omega
    rw [if_neg hcs]
    by_cases h0 : cur = 0
    · subst h0
      rw [if_pos rfl]
      rw [specParent_zero]
    · rw [if_neg h0]
      cases hsp : specParent toc cur with
      | none => simp only [hsp]
      | some p =>
        simp only [hsp]
        have hp : p < cur := specParent_lt hsp
        by_cases hh : (childrenF toc p).head? = some cur
        · rw [if_pos hh, if_pos hh, ih p (by omega)]
        · rw [if_neg hh, if_neg hh]

end TocSeg

namespace TocSeg

/-- C4: round-trip partition.  For a well-formed outline — nonempty, single
root (every later entry has level strictly above the level of the root entry),
root start page 1, pages non-decreasing in sequence order and bounded by the
document length — concatenating, in leaf-collection order, the attributed
ancestor-intro 0-based page ranges of each collected leaf followed by the own
range of that leaf (start index `start_page - 1`, end index resolved from the
stored end page exactly as the extractor resolves it) reconstructs the full
0-based document page range `[0, doc_length)` with no gaps and no overlaps. -/
theorem C4_round_trip (toc : List OutlineEntry) (docLength : Nat)
    (hne : toc ≠ [])
    (hroot : ∀ k, k < toc.length → 0 < k → lvl toc 0 < lvl toc k)
    (hpage1 : pg toc 0 = 1)
    (hmono : ∀ b, b < toc.length → ∀ a, a ≤ b → pg toc a ≤ pg toc b)
    (hbound : ∀ k, k < toc.length → pg toc k ≤ (docLength : Int)) :
    (collect_leaf_nodes (build_toc_tree toc).1 (build_toc_tree toc).2).flatMap
        (fun L =>
          ((introFrags toc L).map (fun f : String × Int × Int => (f.2.1 - 1, f.2.2 - 1)) ++
              [(pg toc L - 1,
                (match ((build_toc_tree toc).1.getD L default).endPage with
                  | some e => if e = 0 then (docLength : Int) else e - 1
                  | none => (docLength : Int)))]).flatMap
            (fun r => intRange r.1 r.2)) =
      intRange 0 (docLength : Int) := by
  have hn : 0 < toc.length := List.length_pos.mpr hne
  have hcz : close toc 0 = toc.length := close_zero hne hroot
  rw [collect_eq]
  have hlv : leavesIn toc 0 = (List.range toc.length).filter
      (fun j => decide (childrenF toc j = [])) := by
    unfold leavesIn
    rw [hcz, Nat.sub_zero, ← List.range_eq_range']
  rw [← hlv]
  have hbody : ∀ L, L ∈ leavesIn toc 0 →
      ((introFrags toc L).map (fun f : String × Int × Int => (f.2.1 - 1, f.2.2 - 1)) ++
          [(pg toc L - 1,
            (match ((build_toc_tree toc).1.getD L default).endPage with
              | some e => if e = 0 then (docLength : Int) else e - 1
              | none => (docLength : Int)))]).flatMap
        (fun r => intRange r.1 r.2) = segPages toc docLength 0 L := by
    intro L hL
    obtain ⟨hL0, hLc, hLleaf⟩ := (mem_leavesIn hn).mp hL
    have hLn : L < toc.length := lt_of_lt_of_le hLc (close_le hn)
    have hown : (match ((build_toc_tree toc).1.getD L default).endPage with
        | some e => if e = 0 then (docLength : Int) else e - 1
        | none => (docLength : Int)) = endEx toc docLength L := by
      rw [node_endPage hLn, specEndPage_close hLn]
      by_cases hc : close toc L < toc.length
      · rw [if_pos hc]
        dsimp only
        have hge1 : (1 : Int) ≤ pg toc (close toc L) := by
          have := hmono (close toc L) hc 0 (Nat.zero_le _)
          omega
        rw [if_neg (show ¬ pg toc (close toc L) = 0 by omega)]
        unfold endEx
        rw [if_pos hc]
      · rw [if_neg hc]
        dsimp only
        unfold endEx
        rw [if_neg hc]
    simp only [List.flatMap_append, List.flatMap_cons, List.flatMap_nil, List.append_nil]
    rw [hown]
    show fragPages (introFragsUpTo toc toc.length toc.length L) ++
        intRange (pg toc L - 1) (endEx toc docLength L) = segPages toc docLength 0 L
    rw [fragsUpTo_stop_irrel toc toc.length L hLn]
    rfl
  refine Eq.trans (List.flatMap_congr hbody) ?_
  have hcov := seg_cover toc docLength hmono hbound toc.length 0 hn
    (by have := close_le hn; omega)
  rw [hcov, hpage1]
  have hend0 : endEx toc docLength 0 = (docLength : Int) := by
    unfold endEx
    rw [hcz, if_neg (lt_irrefl _)]
  rw [hend0]
  norm_num

/-- Witness for C4 on the Scenario B outline (a single-root three-entry
outline over a 10-page document): the well-formedness hypotheses hold and the
reconstruction matches. -/
theorem C4_round_trip_witness :
    (collect_leaf_nodes (build_toc_tree tocScenB).1 (build_toc_tree tocScenB).2).flatMap
        (fun L =>
          ((introFrags tocScenB L).map (fun f : String × Int × Int => (f.2.1 - 1, f.2.2 - 1)) ++
              [(pg tocScenB L - 1,
                (match ((build_toc_tree tocScenB).1.getD L default).endPage with
                  | some e => if e = 0 then ((10 : Nat) : Int) else e - 1
                  | none => ((10 : Nat) : Int)))]).flatMap
            (fun r => intRange r.1 r.2)) =
      intRange 0 ((10 : Nat) : Int) :=
  C4_round_trip tocScenB 10 (by simp [tocScenB]) (by decide) (by decide) (by decide)
    (by decide)

end TocSeg
